import Mathlib

set_option maxRecDepth 40000

/-!
A verification development for the manifest data model and
workspace-resolution engine of the `pyn` repository.

The Rust source is shallowly embedded:

* `PackageName` validation (`src/package_name.rs`) is modelled on the
  UTF-8 byte sequence of the candidate string, exactly as the Rust code
  walks `name.as_bytes()`.
* The manifest (`src/package_json.rs`) is modelled over a structured
  JSON value type.  `serde_json` objects are represented as ordered
  association lists; per the documented passthrough requirement the
  order of unrecognized keys and of their object values is preserved
  (numbers are abstracted to `Int`, which no operation inspects).
  `BTreeMap` becomes a key-sorted association list, ordered by the
  byte/codepoint lexicographic order that Rust uses on `String`
  (for valid UTF-8 these coincide with the codepoint order used here),
  and `LinkedHashMap` becomes an insertion-ordered association list.
* Project discovery and queries (`src/project.rs`) are modelled over an
  abstract filesystem; absolute paths are lists of components, and
  `Path::parent` is `List.dropLast`.  `HashMap` is modelled by the
  sequence of its entries in iteration order.
-/

/-- UTF-8 bytes of a string, as the Rust code sees `name.as_bytes()`. -/
def strBytes (s : String) : List UInt8 := s.data.flatMap String.utf8EncodeChar

/-- Codepoint-lexicographic strict order on character lists; for valid
UTF-8 data this coincides with Rust's byte-lexicographic `Ord` on
`String`, which orders `BTreeMap` keys. -/
def lexLt : List Char → List Char → Bool
  | [], [] => false
  | [], _ :: _ => true
  | _ :: _, [] => false
  | a :: as, b :: bs => if a < b then true else if b < a then false else lexLt as bs

/-- Rust `String` order (`Ord for String`), used by `BTreeMap`. -/
def strLt (a b : String) : Bool := lexLt a.data b.data

/-- `is_valid_package_name_byte` from `src/package_name.rs`: the charset
`[a-z0-9_.-]`. -/
def is_valid_package_name_byte (b : UInt8) : Bool :=
  (97 ≤ b && b ≤ 122) || (48 ≤ b && b ≤ 57) || b == 95 || b == 45 || b == 46

/-- `is_bytes_valid_pkg_name` from `src/package_name.rs`. -/
def is_bytes_valid_pkg_name (bs : List UInt8) : Bool :=
  bs.all is_valid_package_name_byte

/-- `INVALID_NAMES` from `src/package_name.rs`: the fixed reserved list. -/
def INVALID_NAMES : List String := [
  "node_modules", "favicon.ico", "assert", "async_hooks", "buffer",
  "child_process", "cluster", "console", "constants", "crypto", "dgram",
  "dns", "domain", "events", "fs", "http", "http2", "https", "inspector",
  "module", "net", "os", "path", "perf_hooks", "process", "punycode",
  "querystring", "readline", "repl", "stream", "string_decoder", "timers",
  "tls", "trace_events", "tty", "url", "util", "v8", "vm", "wasi",
  "worker_threads", "zlib"]

/-- The error of `PackageName::new`; it carries the offending string. -/
structure PackageNameParseError where
  name : String
deriving DecidableEq

/-- `PackageName` from `src/package_name.rs`: the validated string plus
the byte offset at which a scoped name's second half starts. -/
structure PackageName where
  name : String
  scoped_name_start : Option Nat
deriving DecidableEq

/-- The loop over `bytes[1..]` in the `b'@'` arm of `PackageName::new`:
scan for the first `/` (byte 47); the bytes before it must be charset
bytes, and the bytes after it must all be charset bytes.  Returns the
`scoped_name_start` offset on success. -/
def scoped_scan : List UInt8 → Nat → Option Nat
  | [], _ => none
  | b :: rest, pos =>
    if b == 47 then
      if is_bytes_valid_pkg_name rest then some (pos + 1) else none
    else if is_valid_package_name_byte b then scoped_scan rest (pos + 1)
    else none

/-- `PackageName::new` from `src/package_name.rs`. -/
def PackageName.new (name : String) : Except PackageNameParseError PackageName :=
  let bytes := strBytes name
  if bytes.length > 214 || bytes.length == 0 then .error ⟨name⟩
  else match bytes with
    | [] => .error ⟨name⟩
    | b0 :: rest =>
      if b0 == 46 || b0 == 95 then .error ⟨name⟩
      else if b0 == 64 then
        match scoped_scan rest 0 with
        | some pos => .ok ⟨name, some pos⟩
        | none => .error ⟨name⟩
      else if !is_bytes_valid_pkg_name bytes then .error ⟨name⟩
      else if INVALID_NAMES.contains name then .error ⟨name⟩
      else .ok ⟨name, none⟩

/-- Spec-side charset test, literally `[a-z0-9_.-]` as the spec lists it. -/
def specByteOk (b : UInt8) : Bool :=
  (97 ≤ b && b ≤ 122) || (48 ≤ b && b ≤ 57) || b == 95 || b == 46 || b == 45

/-- Split a byte sequence at its first `/`, giving the two halves of a
scoped name body. -/
def splitFirstSlash : List UInt8 → Option (List UInt8 × List UInt8)
  | [] => none
  | b :: t =>
    if b == 47 then some ([], t)
    else match splitFirstSlash t with
      | some (s, r) => some (b :: s, r)
      | none => none

/-- Spec-side acceptance predicate for `PackageName`, phrased from the
spec: length in [1,214] bytes; first byte neither `.` nor `_`; a name
starting with `@` must have the form `@scope/name` with both halves in
the charset; any other name must be all charset bytes and not reserved. -/
def specAccepts (s : String) : Bool :=
  let bytes := strBytes s
  decide (1 ≤ bytes.length) && decide (bytes.length ≤ 214) &&
  match bytes with
  | [] => false
  | b0 :: rest =>
    !(b0 == 46) && !(b0 == 95) &&
    (if b0 == 64 then
      match splitFirstSlash rest with
      | some (scope, second) => scope.all specByteOk && second.all specByteOk
      | none => false
    else bytes.all specByteOk && !(INVALID_NAMES.contains s))

/-- Structured JSON values, as `serde_json::Value` carries them through
the manifest.  Objects are ordered association lists, so values round-trip
with their authored key order, matching the passthrough byte-for-byte
requirement; numbers are abstracted to `Int` since no manifest operation
inspects them. -/
inductive Json where
  | null
  | bool (b : Bool)
  | num (n : Int)
  | str (s : String)
  | arr (elems : List Json)
  | obj (entries : List (String × Json))

/-- First-match lookup in an association list (`BTreeMap::get` /
`HashMap::get` on our list models, whose keys are unique). -/
def mapLookup {β : Type} (k : String) : List (String × β) → Option β
  | [] => none
  | (q, w) :: t => if q = k then some w else mapLookup k t

/-- Insertion into a key-sorted association list — the model of
`BTreeMap` insertion.  `upd none` is the value stored for a fresh key and
`upd (some w)` the value replacing an existing binding `w`. -/
def mapInsertWith {β : Type} (upd : Option β → β) (k : String) :
    List (String × β) → List (String × β)
  | [] => [(k, upd none)]
  | (q, w) :: t =>
    if strLt k q then (k, upd none) :: (q, w) :: t
    else if k = q then (q, upd (some w)) :: t
    else (q, w) :: mapInsertWith upd k t

/-- `LinkedHashMap::insert`: replace the value of an existing key in
place, otherwise append at the end of the iteration order. -/
def insertKeep {β : Type} (k : String) (v : β) : List (String × β) → List (String × β)
  | [] => [(k, v)]
  | (q, w) :: t => if q = k then (q, v) :: t else (q, w) :: insertKeep k v t

/-- The keys of an association list are strictly sorted — the invariant
of every `BTreeMap` model in this file. -/
def keysSorted {β : Type} (m : List (String × β)) : Prop :=
  List.Pairwise (fun a b => strLt a.1 b.1 = true) m

/-- A dependency section: `BTreeMap<PackageName, String>` modelled as a
key-sorted association list from the validated name's string to the
version specifier (`Ord`/`Eq` on `PackageName` are by the string). -/
abbrev Dependencies := List (String × String)

/-- `BTreeMap::insert` for a dependency section. -/
def depsInsert (k v : String) (d : Dependencies) : Dependencies :=
  mapInsertWith (fun _ => v) k d

/-- `BTreeMap::remove` for a dependency section. -/
def depsRemove (k : String) (d : Dependencies) : Dependencies :=
  d.filter (fun kv => kv.1 ≠ k)

/-- `PkgJsonValue` from `src/package_json.rs`: a passthrough slot either
marks a recognized key whose data lives in a typed field, or holds the
raw value of an unrecognized key. -/
inductive PkgJsonValue where
  | storedElsewhere
  | value (v : Json)

/-- `PackageJson` from `src/package_json.rs`. -/
structure PackageJson where
  name : PackageName
  dependencies : Dependencies
  dev_dependencies : Dependencies
  optional_dependencies : Dependencies
  peer_dependencies : Dependencies
  scripts : List (String × String)
  storage : List (String × PkgJsonValue)

/-- `PackageJson::iter_normal_deps`: dependencies, devDependencies and
optionalDependencies — peerDependencies excluded. -/
def PackageJson.iter_normal_deps (pj : PackageJson) : List Dependencies :=
  [pj.dependencies, pj.dev_dependencies, pj.optional_dependencies]

/-- `PackageJson::remove_dep`: remove the name from all four maps. -/
def PackageJson.remove_dep (pj : PackageJson) (pkg : String) : PackageJson :=
  { pj with
    dependencies := depsRemove pkg pj.dependencies
    dev_dependencies := depsRemove pkg pj.dev_dependencies
    optional_dependencies := depsRemove pkg pj.optional_dependencies
    peer_dependencies := depsRemove pkg pj.peer_dependencies }

/-- `DEPENDENCY_TYPES` from `src/package_json.rs`. -/
def DEPENDENCY_TYPES : List String :=
  ["dependencies", "devDependencies", "peerDependencies", "optionalDependencies"]

/-- Deserializing a `LinkedHashMap<String, String>` (the `scripts`
section): every value must be a string; entries are inserted in order. -/
def scriptsOfEntries : List (String × Json) → List (String × String) →
    Option (List (String × String))
  | [], acc => some acc
  | (k, .str s) :: t, acc => scriptsOfEntries t (insertKeep k s acc)
  | _, _ => none

/-- `scripts` must be a JSON object of strings. -/
def parseScripts : Json → Option (List (String × String))
  | .obj es => scriptsOfEntries es []
  | _ => none

/-- Deserializing a `BTreeMap<PackageName, String>` (a dependency
section): every key must be a valid `PackageName` and every value a
string; entries are inserted in order into the sorted map. -/
def depsOfEntries : List (String × Json) → Dependencies → Option Dependencies
  | [], acc => some acc
  | (k, .str s) :: t, acc =>
    if (PackageName.new k).isOk then depsOfEntries t (depsInsert k s acc) else none
  | _, _ => none

/-- A dependency section must be a JSON object of version strings keyed
by valid package names. -/
def parseDeps : Json → Option Dependencies
  | .obj es => depsOfEntries es []
  | _ => none

/-- The mutable state of `PackageJsonVisitor::visit_map`. -/
structure ParseAcc where
  name : Option PackageName
  scripts : List (String × String)
  dependencies : Dependencies
  dev_dependencies : Dependencies
  optional_dependencies : Dependencies
  peer_dependencies : Dependencies
  storage : List (String × PkgJsonValue)

/-- The initial visitor state. -/
def initAcc : ParseAcc := ⟨none, [], [], [], [], [], []⟩

/-- The parsed value a `name` entry contributes to the visitor state. -/
def parseNameField : Json → Option (Option PackageName)
  | .str s =>
    match PackageName.new s with
    | .ok pn => some (some pn)
    | .error _ => none
  | _ => none

/-- The entry loop of `PackageJsonVisitor::visit_map`: walk the
top-level entries in file order; a second `name` is a duplicate-field
error; recognized sections are extracted into typed fields and leave a
`storedElsewhere` marker at their position; every other key stores its
raw value at its position. -/
def visit_map : List (String × Json) → ParseAcc → Option ParseAcc
  | [], acc => some acc
  | (key, v) :: rest, acc =>
    if key = "name" then
      match acc.name with
      | some _ => none
      | none =>
        match parseNameField v with
        | some newName =>
          visit_map rest { acc with
            name := newName
            storage := insertKeep key .storedElsewhere acc.storage }
        | none => none
    else if key = "scripts" then
      match parseScripts v with
      | some sc =>
        visit_map rest { acc with
          scripts := sc
          storage := insertKeep key .storedElsewhere acc.storage }
      | none => none
    else if key = "dependencies" then
      match parseDeps v with
      | some d =>
        visit_map rest { acc with
          dependencies := d
          storage := insertKeep key .storedElsewhere acc.storage }
      | none => none
    else if key = "devDependencies" then
      match parseDeps v with
      | some d =>
        visit_map rest { acc with
          dev_dependencies := d
          storage := insertKeep key .storedElsewhere acc.storage }
      | none => none
    else if key = "peerDependencies" then
      match parseDeps v with
      | some d =>
        visit_map rest { acc with
          peer_dependencies := d
          storage := insertKeep key .storedElsewhere acc.storage }
      | none => none
    else if key = "optionalDependencies" then
      match parseDeps v with
      | some d =>
        visit_map rest { acc with
          optional_dependencies := d
          storage := insertKeep key .storedElsewhere acc.storage }
      | none => none
    else visit_map rest { acc with storage := insertKeep key (.value v) acc.storage }

/-- Does the storage list already hold a slot for this key
(`LinkedHashMap::contains_key`)? -/
def storageContains (st : List (String × PkgJsonValue)) (k : String) : Bool :=
  st.any (fun kv => kv.1 = k)

/-- After the walk, any of the four dependency keys that never appeared
gets a `storedElsewhere` marker appended at the end of the position
list. -/
def addMissingDepMarkers (st : List (String × PkgJsonValue)) :
    List (String × PkgJsonValue) :=
  DEPENDENCY_TYPES.foldl
    (fun st dt => if storageContains st dt then st else st ++ [(dt, .storedElsewhere)]) st

/-- `Deserialize for PackageJson`: the document must be a JSON object;
run the visitor; require `name` to have appeared. -/
def parsePackageJson : Json → Option PackageJson
  | .obj entries =>
    match visit_map entries initAcc with
    | some acc =>
      match acc.name with
      | some n =>
        some ⟨n, acc.dependencies, acc.dev_dependencies, acc.optional_dependencies,
          acc.peer_dependencies, acc.scripts, addMissingDepMarkers acc.storage⟩
      | none => none
    | none => none
  | _ => none

/-- Re-render a scripts map as a JSON object. -/
def renderScripts (sc : List (String × String)) : Json :=
  .obj (sc.map (fun kv => (kv.1, .str kv.2)))

/-- Re-render a dependency section as a JSON object (its list is already
key-sorted). -/
def renderDeps (d : Dependencies) : Json :=
  .obj (d.map (fun kv => (kv.1, .str kv.2)))

/-- The dependency field addressed by a recognized storage key (the
`match key.as_str()` table in `Serialize for PackageJson`). -/
def depsFor (pj : PackageJson) (key : String) : Dependencies :=
  if key = "dependencies" then pj.dependencies
  else if key = "devDependencies" then pj.dev_dependencies
  else if key = "peerDependencies" then pj.peer_dependencies
  else pj.optional_dependencies

/-- One entry of `Serialize for PackageJson`: raw passthrough values are
emitted as stored; `name` is always emitted; `scripts` and each
dependency section are emitted only when non-empty.  A `storedElsewhere`
marker under any other key is `unreachable!` in the source and never
created by deserialization; it emits nothing here. -/
def serializeEntry (pj : PackageJson) (key : String) (v : PkgJsonValue) :
    Option (String × Json) :=
  match v with
  | .value j => some (key, j)
  | .storedElsewhere =>
    if key = "name" then some (key, .str pj.name.name)
    else if key = "scripts" then
      if pj.scripts.isEmpty then none else some (key, renderScripts pj.scripts)
    else if key ∈ DEPENDENCY_TYPES then
      if (depsFor pj key).isEmpty then none else some (key, renderDeps (depsFor pj key))
    else none

/-- `Serialize for PackageJson`: iterate the stored positions in order
and emit each entry that resolves to a value. -/
def serializePackageJson (pj : PackageJson) : List (String × Json) :=
  pj.storage.filterMap (fun kv => serializeEntry pj kv.1 kv.2)

/-- An entry is well-typed for the deserializer: a `name` entry must be a
string that validates as a `PackageName`; a `scripts` entry must be an
object of strings; a dependency entry must be an object of version
strings keyed by valid package names; any other entry always is. -/
def wellTypedEntry : String × Json → Bool
  | (k, v) =>
    if k = "name" then (parseNameField v).isSome
    else if k = "scripts" then (parseScripts v).isSome
    else if k ∈ DEPENDENCY_TYPES then (parseDeps v).isSome
    else true

/-- How many top-level entries carry the key `name`. -/
def countName (entries : List (String × Json)) : Nat :=
  (entries.filter (fun kv => decide (kv.1 = "name"))).length

/-- The storage slot deserialization records for one top-level entry. -/
def entryMarker (kv : String × Json) : String × PkgJsonValue :=
  if kv.1 = "name" ∨ kv.1 = "scripts" ∨ kv.1 ∈ DEPENDENCY_TYPES
  then (kv.1, .storedElsewhere) else (kv.1, .value kv.2)

/-- Is the value the empty JSON object? -/
def isEmptyObj : Json → Bool
  | .obj [] => true
  | _ => false

/-- The final value of a typed field after the visitor walk: the parse
of the (unique) entry under `key`, or the prior value when the key is
absent. -/
def fieldResult {α : Type} (key : String) (entries : List (String × Json))
    (p : Json → Option α) (dflt : α) : α :=
  match mapLookup key entries with
  | some v => (p v).getD dflt
  | none => dflt

/-- A recognized section whose source value is the empty object; these
parse to empty maps and are omitted on re-serialization. -/
def emptyRecognized (kv : String × Json) : Bool :=
  (decide (kv.1 = "scripts") || decide (kv.1 ∈ DEPENDENCY_TYPES)) && isEmptyObj kv.2

/-- Is the value a JSON string? -/
def isStrVal : Json → Bool
  | .str _ => true
  | _ => false

/-- An object value has pairwise-distinct keys. -/
def objKeysNodup : Json → Bool
  | .obj es => decide (es.map Prod.fst).Nodup
  | _ => true

/-- A well-formed entry: well-typed, and a recognized section's object
additionally has distinct keys. -/
def wfEntry (kv : String × Json) : Bool :=
  wellTypedEntry kv &&
    (if kv.1 = "scripts" ∨ kv.1 ∈ DEPENDENCY_TYPES then objKeysNodup kv.2 else true)

/-- A well-formed manifest document: distinct top-level keys, a `name`
entry present, and every entry well-formed. -/
def wfDoc (entries : List (String × Json)) : Bool :=
  decide (entries.map Prod.fst).Nodup &&
  decide ("name" ∈ entries.map Prod.fst) &&
  entries.all wfEntry

/-- Strip a string-valued object entry to its string pair. -/
def stripStr (kv : String × Json) : String × String :=
  (kv.1, match kv.2 with | .str s => s | _ => "")

/-- `PackageManager` from `src/main.rs`. -/
inductive PackageManager where
  | PNPM
  | NPM
  | Yarn
deriving DecidableEq

/-- The variants of `Error` (`src/main.rs`) reachable from `Project::find`;
the payloads (io/serde error details) are dropped. -/
inductive Error where
  | CouldNotFindLockfile
  | IoError
  | SerdeJson
  | SerdeYaml
deriving DecidableEq

/-- `Package` from `src/project.rs`: a manifest bound to the absolute path
of its `package.json` file, as path components from the filesystem root. -/
structure Package where
  pkg_json_path : List String
  pkg_json : PackageJson

/-- `Package::path`: the containing directory (`Path::parent`). -/
def Package.path (p : Package) : List String := p.pkg_json_path.dropLast

/-- `Project` from `src/project.rs`.  The member `HashMap` is modelled by
its entry sequence in iteration order. -/
structure Project where
  root : Package
  packages : Option (List (PackageName × Package))
  manager : PackageManager

/-- `Project::iter`: every member package in map iteration order, then the
root. -/
def Project.iter (p : Project) : List Package :=
  (match p.packages with
   | some pkgs => pkgs.map Prod.snd
   | none => []) ++ [p.root]

/-- `Project::find_dependents`: for every package, scan the three normal
dependency maps for the name and push the package name under the found
specifier; the outer map is a `BTreeMap` keyed by specifier. -/
def Project.depOccurrences (p : Project) (name : String) :
    List (String × PackageName) :=
  (p.iter).flatMap (fun pkg =>
    (pkg.pkg_json.iter_normal_deps).filterMap (fun deps =>
      (mapLookup name deps).map (fun specifier => (specifier, pkg.pkg_json.name))))

def Project.find_dependents (p : Project) (name : String) :
    List (String × List PackageName) :=
  (p.depOccurrences name).foldl
    (fun m sv => mapInsertWith (fun o => o.getD [] ++ [sv.2]) sv.1 m) []

/-- The accumulator pass of `find_dependents`, starting from an arbitrary
map (for reasoning about the fold). -/
def collectFold (occ : List (String × PackageName))
    (m : List (String × List PackageName)) : List (String × List PackageName) :=
  occ.foldl (fun m sv => mapInsertWith (fun o => o.getD [] ++ [sv.2]) sv.1 m) m

/-- A member package rooted at `dir` with the given normal dependencies
(example material). -/
def mkPkg (name : String) (dir : List String) (deps : Dependencies) : Package :=
  ⟨dir ++ ["package.json"], ⟨⟨name, none⟩, deps, [], [], [], [], []⟩⟩

/-- The spec's `find_dependents` scenario: members A and B depending on
lodash at different specifiers. -/
def projEx : Project :=
  ⟨mkPkg "root" ["repo"] [],
   some [(⟨"a", none⟩, mkPkg "a" ["repo", "packages", "a"] [("lodash", "^4.0.0")]),
         (⟨"b", none⟩, mkPkg "b" ["repo", "packages", "b"] [("lodash", "^3.0.0")])],
   .Yarn⟩

/-- Two members sharing one specifier, iterated in the order b then a. -/
def projUnsorted : Project :=
  ⟨mkPkg "root" ["repo"] [],
   some [(⟨"b", none⟩, mkPkg "b" ["repo", "packages", "b"] [("lodash", "^1.0.0")]),
         (⟨"a", none⟩, mkPkg "a" ["repo", "packages", "a"] [("lodash", "^1.0.0")])],
   .Yarn⟩

/-- A project whose root lists lodash only under `peerDependencies`. -/
def projPeer : Project :=
  ⟨⟨["repo", "package.json"], ⟨⟨"root", none⟩, [], [], [], [("lodash", "^2.0.0")], [], []⟩⟩,
   none,
   .Yarn⟩

/-- The spec's `closest_pkg` scenario: root at `/repo`, one member foo at
`/repo/packages/foo`. -/
def projC7 : Project :=
  ⟨mkPkg "root" ["repo"] [],
   some [(⟨"foo", none⟩, mkPkg "foo" ["repo", "packages", "foo"] [])],
   .Yarn⟩

/-- `HashMap::insert` keyed by directory path: replace if present. -/
def hmInsert (k : List String) (v : Package) :
    List (List String × Package) → List (List String × Package)
  | [] => [(k, v)]
  | (q, w) :: t => if q = k then (q, v) :: t else (q, w) :: hmInsert k v t

/-- `HashMap::get` keyed by directory path. -/
def pathLookup (k : List String) : List (List String × Package) → Option Package
  | [] => none
  | (q, w) :: t => if q = k then some w else pathLookup k t

/-- The directory-keyed package map `closest_pkg` builds: the root first,
then every member. -/
def pkgMapOf (p : Project) : List (List String × Package) :=
  (match p.packages with
   | some pkgs => pkgs.map Prod.snd
   | none => []).foldl
    (fun (m : List (List String × Package)) (pkg : Package) => hmInsert pkg.path pkg m)
    (hmInsert p.root.path p.root [])

/-- The upward loop of `closest_pkg`: check the map at each ancestor,
stopping at the filesystem root (whose parent is `None`).  Each step drops
the last path component, so `path.length + 1` rounds always suffice; the
fuel only makes the structural recursion explicit. -/
def walkUpFuel (m : List (List String × Package)) :
    Nat → List String → Option Package
  | 0, _ => none
  | fuel + 1, path =>
    match pathLookup path m with
    | some pkg => some pkg
    | none =>
      match path with
      | [] => none
      | _ :: _ => walkUpFuel m fuel path.dropLast

def walkUp (m : List (List String × Package)) (path : List String) :
    Option Package :=
  walkUpFuel m (path.length + 1) path

/-- `Project::closest_pkg`. -/
def Project.closest_pkg (p : Project) (path : List String) : Option Package :=
  walkUp (pkgMapOf p) path

/-- The state of a directory's `pnpm-workspace.yaml`. -/
inductive PnpmWsFile where
  | missing
  | malformed
  | found (packages : List String)

/-- The abstract filesystem that discovery walks: each directory's entries
in listing order; the parsed `package.json` of a directory (`none` when
the file cannot be read); the `pnpm-workspace.yaml` state; and the member
packages that glob expansion (`find_packages` plus `Package::find` on
each match) yields for a root directory and glob list — the glob/ignore
semantics live in the `ignore` crate and are abstracted as this oracle. -/
structure FileSys where
  listing : List String → List String
  readPkgJson : List String → Option Json
  pnpmWorkspaceFile : List String → PnpmWsFile
  expandMembers : List String → List String → List Package

/-- Which lock artifact a directory entry is, and the manager it names
(the `match entry.file_name()` table in `Project::find`). -/
def lockEntry (e : String) : Option PackageManager :=
  if e = "yarn.lock" then some .Yarn
  else if e = "pnpm-lock.yaml" then some .PNPM
  else if e = "package-lock.json" then some .NPM
  else none

/-- The first directory entry in listing order that is a lock artifact. -/
def firstLock : List String → Option PackageManager
  | [] => none
  | e :: t =>
    match lockEntry e with
    | some mgr => some mgr
    | none => firstLock t

/-- A JSON array of strings (`Vec<String>`). -/
def allStrings : List Json → Option (List String)
  | [] => some []
  | .str s :: t => (allStrings t).map (fun gs => s :: gs)
  | _ => none

/-- The value of the `workspaces` field: `null` deserializes the `Option`
to `None`; a bare array of globs or an object with a `packages` array is
the untagged `NpmOrYarnWorkspaceConfig`; anything else is a serde
error. -/
def parseWsValue : Json → Except Error (Option (List String))
  | .null => .ok none
  | .arr xs =>
    match allStrings xs with
    | some gs => .ok (some gs)
    | none => .error .SerdeJson
  | .obj es =>
    match es.filter (fun kv => decide (kv.1 = "packages")) with
    | [(_, .arr xs)] =>
      match allStrings xs with
      | some gs => .ok (some gs)
      | none => .error .SerdeJson
    | _ => .error .SerdeJson
  | _ => .error .SerdeJson

/-- `PackageJsonForNpmOrYarnWorkspaceConfig`: the top level must be an
object; a missing `workspaces` field is `None`; a duplicated field is a
serde error. -/
def wsConfigOfDoc (doc : Json) : Except Error (Option (List String)) :=
  match doc with
  | .obj entries =>
    match entries.filter (fun kv => decide (kv.1 = "workspaces")) with
    | [] => .ok none
    | [kv] => parseWsValue kv.2
    | _ => .error .SerdeJson
  | _ => .error .SerdeJson

/-- The workspace glob list for the discovered manager: NPM and Yarn read
the `workspaces` field of the root manifest; PNPM reads the sibling
`pnpm-workspace.yaml`, whose absence means no workspace configuration. -/
def wsGlobs (fs : FileSys) (path : List String) (mgr : PackageManager) :
    Except Error (Option (List String)) :=
  match fs.readPkgJson path with
  | none => .error .IoError
  | some doc =>
    match mgr with
    | .NPM => wsConfigOfDoc doc
    | .Yarn => wsConfigOfDoc doc
    | .PNPM =>
      match fs.pnpmWorkspaceFile path with
      | .missing => .ok none
      | .malformed => .error .SerdeYaml
      | .found gs => .ok (some gs)

/-- `HashMap::insert` keyed by `PackageName`. -/
def pnInsert (k : PackageName) (v : Package) :
    List (PackageName × Package) → List (PackageName × Package)
  | [] => [(k, v)]
  | (q, w) :: t => if q = k then (q, v) :: t else (q, w) :: pnInsert k v t

/-- Collect the expanded member packages into the name-keyed member map;
a later member with the same name silently replaces an earlier one. -/
def buildPkgMap (pkgs : List Package) : List (PackageName × Package) :=
  pkgs.foldl (fun m pkg => pnInsert pkg.pkg_json.name pkg m) []

/-- `Project::find` over the abstract filesystem: walk the directory's
entries in listing order for a lock artifact; the first one found fixes
the project root and manager and stops the search; otherwise recurse into
the parent, failing with `CouldNotFindLockfile` at the filesystem root.
On a hit, read and parse the root `package.json`, resolve the workspace
configuration, and expand members when it is present.  Each miss drops the
last path component, so `path.length + 1` rounds always suffice; the fuel
only makes the structural recursion explicit. -/
def findFuel (fs : FileSys) : Nat → List String → Except Error Project
  | 0, _ => .error .CouldNotFindLockfile
  | fuel + 1, path =>
    match firstLock (fs.listing path) with
    | some mgr =>
      match fs.readPkgJson path with
      | none => .error .IoError
      | some doc =>
        match wsGlobs fs path mgr with
        | .error e => .error e
        | .ok globs? =>
          match parsePackageJson doc with
          | none => .error .SerdeJson
          | some rootPj =>
            .ok ⟨⟨path ++ ["package.json"], rootPj⟩,
              globs?.map (fun globs => buildPkgMap (fs.expandMembers path globs)), mgr⟩
    | none =>
      match path with
      | [] => .error .CouldNotFindLockfile
      | _ :: _ => findFuel fs fuel path.dropLast

def Project.find (fs : FileSys) (path : List String) : Except Error Project :=
  findFuel fs (path.length + 1) path

/-- A filesystem whose root directory lists `package-lock.json` before
`yarn.lock` and holds a minimal manifest. -/
def fsC4 : FileSys :=
  ⟨fun p => if p = [] then ["package-lock.json", "yarn.lock"] else [],
   fun p => if p = [] then some (.obj [("name", .str "a")]) else none,
   fun _ => .missing,
   fun _ _ => []⟩

/-- A filesystem with no lock artifact anywhere. -/
def fsNoLock : FileSys :=
  ⟨fun _ => [], fun _ => none, fun _ => .missing, fun _ _ => []⟩

/-- The manager of a discovery result, when it succeeded. -/
def managerOf (r : Except Error Project) : Option PackageManager :=
  match r with
  | .ok proj => some proj.manager
  | .error _ => none

/-- A yarn project whose root manifest has no `workspaces` field. -/
def fsNoWs : FileSys :=
  ⟨fun p => if p = [] then ["yarn.lock"] else [],
   fun p => if p = [] then some (.obj [("name", .str "a")]) else none,
   fun _ => .missing,
   fun _ _ => []⟩

/-- A yarn project whose root manifest has `"workspaces": []` (workspace
configuration present but matching no members). -/
def fsEmptyWs : FileSys :=
  ⟨fun p => if p = [] then ["yarn.lock"] else [],
   fun p =>
     if p = [] then some (.obj [("name", .str "a"), ("workspaces", .arr [])]) else none,
   fun _ => .missing,
   fun _ _ => []⟩

/-- The shape of the member map of a discovery result: `none` on failure,
otherwise the member count per `Option` level. -/
def pkgsShape : Except Error Project → Option (Option Nat)
  | .ok proj => some (proj.packages.map List.length)
  | .error _ => none

/-! ### Theorems -/

theorem byteOk_eq (b : UInt8) : is_valid_package_name_byte b = specByteOk b := by
  unfold is_valid_package_name_byte specByteOk
  ac_rfl

theorem bytesValid_eq (bs : List UInt8) :
    is_bytes_valid_pkg_name bs = bs.all specByteOk := by
  unfold is_bytes_valid_pkg_name
  exact congrArg bs.all (funext byteOk_eq)

theorem slash_not_valid : is_valid_package_name_byte 47 = false := by decide

theorem scan_isSome (t : List UInt8) :
    ∀ pos, (scoped_scan t pos).isSome =
      (match splitFirstSlash t with
       | some (s, r) => s.all specByteOk && r.all specByteOk
       | none => false) := by
  induction t with
  | nil => intro pos; rfl
  | cons b rest ih =>
    intro pos
    by_cases h47 : b == 47
    · simp only [scoped_scan, splitFirstSlash, h47, if_true]
      rw [show ((if is_bytes_valid_pkg_name rest then some (pos + 1) else none).isSome) =
            is_bytes_valid_pkg_name rest by split <;> simp_all]
      simp [bytesValid_eq]
    · by_cases hv : is_valid_package_name_byte b
      · simp only [scoped_scan, splitFirstSlash, h47, if_false, hv, if_true, Bool.false_eq_true]
        rw [ih (pos + 1)]
        cases hsp : splitFirstSlash rest with
        | none => simp
        | some p =>
          obtain ⟨s, r⟩ := p
          have hb : specByteOk b = true := byteOk_eq b ▸ hv
          simp [hb]
      · simp only [scoped_scan, splitFirstSlash, h47, hv, Bool.false_eq_true, if_false]
        cases hsp : splitFirstSlash rest with
        | none => simp
        | some p =>
          obtain ⟨s, r⟩ := p
          have hb : specByteOk b = false := byteOk_eq b ▸ (Bool.not_eq_true _ ▸ eq_false_of_ne_true hv)
          simp [hb]

theorem except_isOk_ok {ε α : Type} (a : α) : (Except.ok a : Except ε α).isOk = true := rfl

theorem except_isOk_error {ε α : Type} (e : ε) : (Except.error e : Except ε α).isOk = false := rfl

theorem new_isOk_eq (s : String) : (PackageName.new s).isOk = specAccepts s := by
  unfold PackageName.new specAccepts
  cases hby : strBytes s with
  | nil => rfl
  | cons b0 rest =>
    simp only []
    split_ifs with h1 h2 h3 h4 h5 h6 h7
    · have hf : decide ((b0 :: rest).length ≤ 214) = false := by
        rw [decide_eq_false_iff_not]
        simp only [Bool.or_eq_true, decide_eq_true_eq, beq_iff_eq, List.length_cons,
          gt_iff_lt] at h1
        simp only [List.length_cons]
        omega
      rw [except_isOk_error, hf]
      simp
    · have hf : decide ((b0 :: rest).length ≤ 214) = false := by
        rw [decide_eq_false_iff_not]
        simp only [Bool.or_eq_true, decide_eq_true_eq, beq_iff_eq, List.length_cons,
          gt_iff_lt] at h1
        simp only [List.length_cons]
        omega
      rw [except_isOk_error, hf]
      simp
    · rcases Bool.or_eq_true _ _ ▸ h3 with h | h <;> rw [except_isOk_error, h] <;> simp
    · rcases Bool.or_eq_true _ _ ▸ h3 with h | h <;> rw [except_isOk_error, h] <;> simp
    · have hlen2 : (b0 :: rest).length ≤ 214 := by
        simp only [Bool.or_eq_true, not_or, decide_eq_true_eq, beq_iff_eq,
          List.length_cons, gt_iff_lt] at h1
        simp only [List.length_cons]
        omega
      have h214t : decide ((b0 :: rest).length ≤ 214) = true := by
        rw [decide_eq_true_eq]; exact hlen2
      simp only [Bool.or_eq_true, not_or] at h3
      have h46 := eq_false_of_ne_true h3.1
      have h95 := eq_false_of_ne_true h3.2
      have hs := scan_isSome rest 0
      cases hscan : scoped_scan rest 0 with
      | some p =>
        rw [hscan] at hs
        simp only [Option.isSome_some] at hs
        rw [except_isOk_ok, ← hs, h214t, h46, h95]
        simp
      | none =>
        rw [hscan] at hs
        simp only [Option.isSome_none] at hs
        rw [except_isOk_error, ← hs]
        simp
    · have hvf : (b0 :: rest).all specByteOk = false := by
        rw [← bytesValid_eq]
        revert h6
        cases is_bytes_valid_pkg_name (b0 :: rest) <;> simp
      rw [except_isOk_error, hvf]
      simp
    · rw [except_isOk_error, h7]
      simp
    · have hlen2 : (b0 :: rest).length ≤ 214 := by
        simp only [Bool.or_eq_true, not_or, decide_eq_true_eq, beq_iff_eq,
          List.length_cons, gt_iff_lt] at h1
        simp only [List.length_cons]
        omega
      have h214t : decide ((b0 :: rest).length ≤ 214) = true := by
        rw [decide_eq_true_eq]; exact hlen2
      simp only [Bool.or_eq_true, not_or] at h3
      have h46 := eq_false_of_ne_true h3.1
      have h95 := eq_false_of_ne_true h3.2
      have hvt : (b0 :: rest).all specByteOk = true := by
        rw [← bytesValid_eq]
        revert h6
        cases is_bytes_valid_pkg_name (b0 :: rest) <;> simp
      have hresf : INVALID_NAMES.contains s = false := eq_false_of_ne_true h7
      rw [except_isOk_ok, hvt, h214t, h46, h95, hresf]
      simp

theorem new_shape (s : String) :
    PackageName.new s = .error ⟨s⟩ ∨ ∃ st, PackageName.new s = .ok ⟨s, st⟩ := by
  unfold PackageName.new
  cases hby : strBytes s with
  | nil => left; rfl
  | cons b0 rest =>
    simp only []
    split_ifs
    · left; rfl
    · left; rfl
    · cases scoped_scan rest 0
      · left; rfl
      · right; exact ⟨_, rfl⟩
    · left; rfl
    · left; rfl
    · right; exact ⟨_, rfl⟩

theorem new_error_name (s : String) (e : PackageNameParseError)
    (h : PackageName.new s = .error e) : e.name = s := by
  rcases new_shape s with hs | ⟨st, hp⟩
  · rw [hs] at h
    exact congrArg PackageNameParseError.name (Except.error.inj h).symm
  · rw [hp] at h
    exact absurd h (by simp)

theorem scan_of_valid_halves (scope rest : List UInt8)
    (hsc : scope.all is_valid_package_name_byte = true)
    (hr : rest.all is_valid_package_name_byte = true) :
    ∀ pos, (scoped_scan (scope ++ 47 :: rest) pos).isSome = true := by
  induction scope with
  | nil =>
    intro pos
    simp only [List.nil_append, scoped_scan, beq_self_eq_true, if_true]
    rw [show is_bytes_valid_pkg_name rest = true from hr]
    rfl
  | cons b t ih =>
    intro pos
    simp only [List.all_cons, Bool.and_eq_true] at hsc
    have hb47 : (b == 47) = false := by
      rcases Bool.eq_false_or_eq_true (b == 47) with h | h
      · rw [beq_iff_eq.mp h] at hsc
        exact absurd hsc.1 (by decide)
      · exact h
    simp only [List.cons_append, scoped_scan, hb47, Bool.false_eq_true, if_false, hsc.1,
      if_true]
    exact ih hsc.2 (pos + 1)

/-- C2: `PackageName::new` accepts exactly the strings satisfying the spec's
validation rules (length in [1,214] bytes, first byte not `.` or `_`,
charset-restricted unscoped names outside the reserved list, and
`@scope/name` scoped names with both halves charset-valid); it rejects the
listed examples and accepts the listed examples, and on failure the error
carries the original offending string. -/
theorem c2_package_name_validation :
    (∀ s, (PackageName.new s).isOk = specAccepts s) ∧
    (∀ s e, PackageName.new s = .error e → e.name = s) ∧
    (∀ s, (strBytes s).length = 215 → (PackageName.new s).isOk = false) ∧
    (PackageName.new "").isOk = false ∧
    (PackageName.new ".foo").isOk = false ∧
    (PackageName.new "_foo").isOk = false ∧
    (PackageName.new "Foo/Bar!").isOk = false ∧
    (PackageName.new "@keystone-next/mono-repo").isOk = true ∧
    (PackageName.new "lodash").isOk = true ∧
    (PackageName.new "@scope/name-2").isOk = true := by
  refine ⟨new_isOk_eq, new_error_name, ?_, ?_, ?_, ?_, ?_, ?_, ?_, ?_⟩
  · intro s h
    rw [new_isOk_eq]
    unfold specAccepts
    cases hby : strBytes s with
    | nil => rw [hby] at h; simp at h
    | cons b0 rest =>
      simp only []
      rw [hby] at h
      rw [show decide ((b0 :: rest).length ≤ 214) = false by
        rw [decide_eq_false_iff_not]; omega]
      simp
  all_goals decide

theorem c2_witness :
    ({ name := "_foo" } : PackageNameParseError).name = "_foo" ∧
    (PackageName.new (String.mk (List.replicate 215 'a'))).isOk = false :=
  ⟨c2_package_name_validation.2.1 "_foo" ⟨"_foo"⟩ rfl,
   c2_package_name_validation.2.2.1 (String.mk (List.replicate 215 'a')) (by decide)⟩

/-- C10: for scoped inputs only the charset of the two halves around the
first `/` is checked: any `@scope/name` whose halves are charset-valid is
accepted (within the length bound), including an empty scope half, an
empty name half, a name half starting with `.` or `_`, and a name half
equal to a reserved platform-module name. -/
theorem c10_scoped_charset_only :
    (∀ s scope rest, strBytes s = 64 :: (scope ++ 47 :: rest) →
      scope.all is_valid_package_name_byte = true →
      rest.all is_valid_package_name_byte = true →
      (strBytes s).length ≤ 214 →
      (PackageName.new s).isOk = true) ∧
    (PackageName.new "@/foo").isOk = true ∧
    (PackageName.new "@scope/").isOk = true ∧
    (PackageName.new "@scope/.foo").isOk = true ∧
    (PackageName.new "@scope/_foo").isOk = true ∧
    (PackageName.new "@scope/fs").isOk = true := by
  refine ⟨?_, by decide, by decide, by decide, by decide, by decide⟩
  intro s scope rest hby hsc hr hlen
  unfold PackageName.new
  rw [hby] at hlen ⊢
  simp only []
  rw [show (decide ((64 :: (scope ++ 47 :: rest)).length > 214) ||
      (64 :: (scope ++ 47 :: rest)).length == 0) = false by
    simp only [Bool.or_eq_false_iff, decide_eq_false_iff_not, gt_iff_lt, not_lt,
      List.length_cons, beq_eq_false_iff_ne, ne_eq]
    constructor
    · simpa using hlen
    · simp]
  simp only [Bool.false_eq_true, if_false]
  rw [show ((64 : UInt8) == 46 || (64 : UInt8) == 95) = false by decide]
  simp only [Bool.false_eq_true, if_false]
  rw [show ((64 : UInt8) == 64) = true by decide]
  simp only [if_true]
  have := scan_of_valid_halves scope rest hsc hr 0
  cases hscan : scoped_scan (scope ++ 47 :: rest) 0 with
  | none => rw [hscan] at this; exact absurd this (by simp)
  | some p => rfl

theorem c10_witness :
    (PackageName.new "@/foo").isOk = true :=
  c10_scoped_charset_only.1 "@/foo" [] [102, 111, 111] (by decide) (by decide)
    (by decide) (by decide)

theorem lexLt_irrefl (l : List Char) : lexLt l l = false := by
  induction l with
  | nil => rfl
  | cons a t ih => simp [lexLt, lt_irrefl, ih]

theorem lexLt_trans : ∀ {a b c : List Char},
    lexLt a b = true → lexLt b c = true → lexLt a c = true := by
  intro a
  induction a with
  | nil =>
    intro b c hab hbc
    cases b with
    | nil => exact absurd hab (by simp [lexLt])
    | cons x xs =>
      cases c with
      | nil => exact absurd hbc (by simp [lexLt])
      | cons y ys => rfl
  | cons a as ih =>
    intro b c hab hbc
    cases b with
    | nil => exact absurd hab (by simp [lexLt])
    | cons x xs =>
      cases c with
      | nil => exact absurd hbc (by simp [lexLt])
      | cons y ys =>
        by_cases hax : a < x
        · by_cases hxy : x < y
          · simp [lexLt, lt_trans hax hxy]
          · by_cases hyx : y < x
            · rw [lexLt] at hbc; simp [hxy, hyx] at hbc
            · have hxeqy : x = y := le_antisymm (not_lt.mp hyx) (not_lt.mp hxy)
              subst hxeqy
              simp [lexLt, hax]
        · by_cases hxa : x < a
          · rw [lexLt] at hab; simp [hax, hxa] at hab
          · have haeqx : a = x := le_antisymm (not_lt.mp hxa) (not_lt.mp hax)
            subst haeqx
            rw [lexLt] at hab
            simp only [lt_irrefl, if_false] at hab
            by_cases hay : a < y
            · simp [lexLt, hay]
            · by_cases hya : y < a
              · rw [lexLt] at hbc; simp [hay, hya] at hbc
              · have haeqy : a = y := le_antisymm (not_lt.mp hya) (not_lt.mp hay)
                subst haeqy
                rw [lexLt] at hbc ⊢
                simp only [lt_irrefl, if_false] at hbc ⊢
                exact ih hab hbc

theorem lexLt_total : ∀ {a b : List Char},
    lexLt a b = false → a ≠ b → lexLt b a = true := by
  intro a
  induction a with
  | nil =>
    intro b hab hne
    cases b with
    | nil => exact absurd rfl hne
    | cons x xs => exact absurd hab (by simp [lexLt])
  | cons a as ih =>
    intro b hab hne
    cases b with
    | nil => rfl
    | cons x xs =>
      by_cases hax : a < x
      · rw [lexLt] at hab; simp [hax] at hab
      · by_cases hxa : x < a
        · simp [lexLt, hxa]
        · have haeqx : a = x := le_antisymm (not_lt.mp hxa) (not_lt.mp hax)
          subst haeqx
          rw [lexLt] at hab ⊢
          simp only [lt_irrefl, if_false] at hab ⊢
          exact ih hab (fun h => hne (by rw [h]))

theorem strLt_irrefl (s : String) : strLt s s = false := lexLt_irrefl s.data

theorem strLt_trans {a b c : String} (hab : strLt a b = true) (hbc : strLt b c = true) :
    strLt a c = true := lexLt_trans hab hbc

theorem strLt_total {a b : String} (hab : strLt a b = false) (hne : a ≠ b) :
    strLt b a = true := by
  refine lexLt_total hab (fun h => hne ?_)
  cases a
  cases b
  exact congrArg String.mk (by simpa using h)

theorem insertWith_ne_nil {β : Type} (upd : Option β → β) (k : String)
    (m : List (String × β)) : mapInsertWith upd k m ≠ [] := by
  cases m with
  | nil => simp [mapInsertWith]
  | cons hd t =>
    obtain ⟨q, w⟩ := hd
    rw [mapInsertWith]
    split_ifs <;> simp

theorem keys_insertWith {β : Type} (upd : Option β → β) (k : String)
    (m : List (String × β)) :
    ∀ x ∈ mapInsertWith upd k m, x.1 = k ∨ x.1 ∈ m.map Prod.fst := by
  induction m with
  | nil =>
    intro x hx
    rw [mapInsertWith] at hx
    rw [List.mem_singleton.mp hx]
    left
    rfl
  | cons hd t ih =>
    obtain ⟨q, w⟩ := hd
    intro x hx
    rw [mapInsertWith] at hx
    split_ifs at hx with h1 h2
    · rcases List.mem_cons.mp hx with h | h
      · left; rw [h]
      · right
        rcases List.mem_cons.mp h with h2 | h2
        · rw [h2]; simp
        · simp only [List.map_cons, List.mem_cons]
          right
          exact List.mem_map_of_mem Prod.fst h2
    · rcases List.mem_cons.mp hx with h | h
      · left; rw [h]; exact h2.symm
      · right
        simp only [List.map_cons, List.mem_cons]
        right
        exact List.mem_map_of_mem Prod.fst h
    · rcases List.mem_cons.mp hx with h | h
      · right; rw [h]; simp
      · rcases ih x h with h2 | h2
        · left; exact h2
        · right
          simp only [List.map_cons, List.mem_cons]
          right
          exact h2

theorem insertWith_sorted {β : Type} (upd : Option β → β) (k : String)
    {m : List (String × β)} (hm : keysSorted m) :
    keysSorted (mapInsertWith upd k m) := by
  induction m with
  | nil => exact List.pairwise_singleton _ _
  | cons hd t ih =>
    obtain ⟨q, w⟩ := hd
    rw [keysSorted] at hm
    rcases List.pairwise_cons.mp hm with ⟨hq, ht⟩
    rw [mapInsertWith]
    split_ifs with h1 h2
    · refine List.Pairwise.cons ?_ hm
      intro x hx
      rcases List.mem_cons.mp hx with h | h
      · rw [h]; exact h1
      · exact strLt_trans h1 (hq x h)
    · exact List.Pairwise.cons hq ht
    · refine List.Pairwise.cons ?_ (ih ht)
      intro x hx
      rcases keys_insertWith upd k t x hx with h | h
      · rw [h]
        exact strLt_total (eq_false_of_ne_true h1) h2
      · rcases List.mem_map.mp h with ⟨y, hy, hxy⟩
        rw [← hxy]
        exact hq y hy

theorem lookup_none_of_lt_all {β : Type} {k : String} {m : List (String × β)}
    (h : ∀ x ∈ m, strLt k x.1 = true) : mapLookup k m = none := by
  induction m with
  | nil => rfl
  | cons hd t ih =>
    obtain ⟨q, w⟩ := hd
    rw [mapLookup]
    have hk : q ≠ k := by
      intro he
      have := h (q, w) (List.mem_cons_self _ _)
      rw [he] at this
      exact absurd this (by simp [strLt_irrefl])
    rw [if_neg hk]
    exact ih (fun x hx => h x (List.mem_cons_of_mem _ hx))

theorem lookup_insertWith {β : Type} (upd : Option β → β) (k q : String)
    {m : List (String × β)} (hm : keysSorted m) :
    mapLookup q (mapInsertWith upd k m) =
      if q = k then some (upd (mapLookup k m)) else mapLookup q m := by
  induction m with
  | nil =>
    simp only [mapInsertWith, mapLookup]
    by_cases h : k = q
    · rw [if_pos h, if_pos h.symm]
    · rw [if_neg h, if_neg (fun he => h he.symm)]
  | cons hd t ih =>
    obtain ⟨q0, w⟩ := hd
    rw [keysSorted] at hm
    rcases List.pairwise_cons.mp hm with ⟨hq0, ht⟩
    by_cases h1 : strLt k q0 = true
    · rw [mapInsertWith, if_pos h1]
      have hnone : mapLookup k ((q0, w) :: t) = none := by
        refine lookup_none_of_lt_all ?_
        intro x hx
        rcases List.mem_cons.mp hx with h | h
        · rw [h]; exact h1
        · exact strLt_trans h1 (hq0 x h)
      rw [hnone]
      by_cases h : q = k
      · subst h
        rw [mapLookup, if_pos rfl]
      · rw [mapLookup, if_neg (fun he => h he.symm), if_neg h]
    · by_cases h2 : k = q0
      · rw [mapInsertWith, if_neg h1, if_pos h2]
        subst h2
        by_cases h : q = k
        · subst h
          simp [mapLookup]
        · have hkq : ¬ k = q := fun he => h he.symm
          rw [mapLookup, if_neg hkq, if_neg h, mapLookup, if_neg hkq]
      · rw [mapInsertWith, if_neg h1, if_neg h2]
        have hq0k : ¬ q0 = k := fun he => h2 he.symm
        by_cases hq0q : q0 = q
        · subst hq0q
          rw [mapLookup, if_pos rfl, if_neg hq0k, mapLookup, if_pos rfl]
        · rw [mapLookup, if_neg hq0q, ih ht]
          by_cases h : q = k
          · rw [if_pos h, if_pos h, mapLookup, if_neg hq0k]
          · rw [if_neg h, if_neg h, mapLookup, if_neg hq0q]

theorem depsRemove_of_lookup_none {k : String} {d : Dependencies}
    (h : mapLookup k d = none) : depsRemove k d = d := by
  induction d with
  | nil => rfl
  | cons hd t ih =>
    obtain ⟨q, w⟩ := hd
    rw [mapLookup] at h
    by_cases hq : q = k
    · rw [if_pos hq] at h; exact absurd h (by simp)
    · rw [if_neg hq] at h
      rw [depsRemove] at ih ⊢
      rw [List.filter_cons_of_pos (by simpa using hq), ih h]

theorem lookup_depsRemove_self (k : String) (d : Dependencies) :
    mapLookup k (depsRemove k d) = none := by
  induction d with
  | nil => rfl
  | cons hd t ih =>
    obtain ⟨q, w⟩ := hd
    by_cases hq : q = k
    · rw [depsRemove, List.filter_cons_of_neg (by simpa using hq)]
      exact ih
    · rw [depsRemove, List.filter_cons_of_pos (by simpa using hq), mapLookup, if_neg hq]
      exact ih

theorem lookup_depsRemove_ne {k n : String} (h : k ≠ n) (d : Dependencies) :
    mapLookup k (depsRemove n d) = mapLookup k d := by
  induction d with
  | nil => rfl
  | cons hd t ih =>
    obtain ⟨q, w⟩ := hd
    by_cases hq : q = n
    · rw [depsRemove, List.filter_cons_of_neg (by simpa using hq), mapLookup,
        if_neg (fun he => h ((he.symm.trans hq)))]
      exact ih
    · rw [depsRemove, List.filter_cons_of_pos (by simpa using hq), mapLookup, mapLookup]
      by_cases hqk : q = k
      · rw [if_pos hqk, if_pos hqk]
      · rw [if_neg hqk, if_neg hqk]
        exact ih

/-- C5: `remove_dep` removes the name unconditionally from all four
dependency maps regardless of which contained it (afterwards the name
resolves in none of the four, while every other key is untouched), is a
no-op (not an error) when the name is absent from all four, and is
idempotent. -/
theorem c5_remove_dep_noop_idempotent :
    (∀ (pj : PackageJson) (n : String),
      mapLookup n pj.dependencies = none →
      mapLookup n pj.dev_dependencies = none →
      mapLookup n pj.optional_dependencies = none →
      mapLookup n pj.peer_dependencies = none →
      pj.remove_dep n = pj) ∧
    (∀ (pj : PackageJson) (n : String),
      mapLookup n ((pj.remove_dep n).dependencies) = none ∧
      mapLookup n ((pj.remove_dep n).dev_dependencies) = none ∧
      mapLookup n ((pj.remove_dep n).optional_dependencies) = none ∧
      mapLookup n ((pj.remove_dep n).peer_dependencies) = none) ∧
    (∀ (pj : PackageJson) (n k : String), k ≠ n →
      mapLookup k ((pj.remove_dep n).dependencies) = mapLookup k pj.dependencies ∧
      mapLookup k ((pj.remove_dep n).dev_dependencies) = mapLookup k pj.dev_dependencies ∧
      mapLookup k ((pj.remove_dep n).optional_dependencies) =
        mapLookup k pj.optional_dependencies ∧
      mapLookup k ((pj.remove_dep n).peer_dependencies) = mapLookup k pj.peer_dependencies) ∧
    (∀ (pj : PackageJson) (n : String),
      (pj.remove_dep n).remove_dep n = pj.remove_dep n) := by
  refine ⟨?_, ?_, ?_, ?_⟩
  · intro pj n h1 h2 h3 h4
    obtain ⟨nm, d, dd, od, pd, sc, st⟩ := pj
    simp only [PackageJson.remove_dep] at *
    rw [depsRemove_of_lookup_none h1, depsRemove_of_lookup_none h2,
      depsRemove_of_lookup_none h3, depsRemove_of_lookup_none h4]
  · intro pj n
    exact ⟨lookup_depsRemove_self n pj.dependencies,
      lookup_depsRemove_self n pj.dev_dependencies,
      lookup_depsRemove_self n pj.optional_dependencies,
      lookup_depsRemove_self n pj.peer_dependencies⟩
  · intro pj n k hk
    exact ⟨lookup_depsRemove_ne hk pj.dependencies,
      lookup_depsRemove_ne hk pj.dev_dependencies,
      lookup_depsRemove_ne hk pj.optional_dependencies,
      lookup_depsRemove_ne hk pj.peer_dependencies⟩
  · intro pj n
    obtain ⟨nm, d, dd, od, pd, sc, st⟩ := pj
    simp only [PackageJson.remove_dep]
    rw [depsRemove_of_lookup_none (lookup_depsRemove_self n d),
      depsRemove_of_lookup_none (lookup_depsRemove_self n dd),
      depsRemove_of_lookup_none (lookup_depsRemove_self n od),
      depsRemove_of_lookup_none (lookup_depsRemove_self n pd)]

theorem c5_witness :
    (mapLookup "x" ((PackageJson.remove_dep
        ⟨⟨"a", none⟩, [("x", "1")], [("x", "2")], [("x", "3")], [("x", "4")], [], []⟩
        "x").dependencies) = none ∧
      mapLookup "x" ((PackageJson.remove_dep
        ⟨⟨"a", none⟩, [("x", "1")], [("x", "2")], [("x", "3")], [("x", "4")], [], []⟩
        "x").dev_dependencies) = none ∧
      mapLookup "x" ((PackageJson.remove_dep
        ⟨⟨"a", none⟩, [("x", "1")], [("x", "2")], [("x", "3")], [("x", "4")], [], []⟩
        "x").optional_dependencies) = none ∧
      mapLookup "x" ((PackageJson.remove_dep
        ⟨⟨"a", none⟩, [("x", "1")], [("x", "2")], [("x", "3")], [("x", "4")], [], []⟩
        "x").peer_dependencies) = none) ∧
    mapLookup "z" ((PackageJson.remove_dep
        ⟨⟨"a", none⟩, [("x", "1"), ("z", "9")], [], [], [], [], []⟩
        "x").dependencies) =
      mapLookup "z" ([("x", "1"), ("z", "9")] : Dependencies) ∧
    (PackageJson.remove_dep ⟨⟨"a", none⟩, [("x", "1")], [], [], [], [], []⟩ "y") =
      ⟨⟨"a", none⟩, [("x", "1")], [], [], [], [], []⟩ :=
  ⟨c5_remove_dep_noop_idempotent.2.1
      ⟨⟨"a", none⟩, [("x", "1")], [("x", "2")], [("x", "3")], [("x", "4")], [], []⟩ "x",
   (c5_remove_dep_noop_idempotent.2.2.1
      ⟨⟨"a", none⟩, [("x", "1"), ("z", "9")], [], [], [], [], []⟩ "x" "z" (by decide)).1,
   c5_remove_dep_noop_idempotent.1 ⟨⟨"a", none⟩, [("x", "1")], [], [], [], [], []⟩ "y"
      rfl rfl rfl rfl⟩

/-- C9: `remove_dep` modifies only the four dependency maps; the `name`
field, the `scripts` map, and the passthrough storage (keys, values and
stored key order) are unchanged. -/
theorem c9_remove_dep_frame (pj : PackageJson) (n : String) :
    (pj.remove_dep n).name = pj.name ∧
    (pj.remove_dep n).scripts = pj.scripts ∧
    (pj.remove_dep n).storage = pj.storage :=
  ⟨rfl, rfl, rfl⟩

theorem insertKeep_fresh {β : Type} (k : String) (v : β) {m : List (String × β)}
    (h : k ∉ m.map Prod.fst) : insertKeep k v m = m ++ [(k, v)] := by
  induction m with
  | nil => rfl
  | cons hd t ih =>
    obtain ⟨q, w⟩ := hd
    simp only [List.map_cons, List.mem_cons, not_or] at h
    rw [insertKeep, if_neg (fun he => h.1 he.symm), ih h.2, List.cons_append]

theorem insertKeep_ne_nil {β : Type} (k : String) (v : β) (m : List (String × β)) :
    insertKeep k v m ≠ [] := by
  cases m with
  | nil => simp [insertKeep]
  | cons hd t =>
    obtain ⟨q, w⟩ := hd
    rw [insertKeep]
    split_ifs <;> simp

theorem mapLookup_none_of_not_mem {β : Type} {k : String} {m : List (String × β)}
    (h : k ∉ m.map Prod.fst) : mapLookup k m = none := by
  induction m with
  | nil => rfl
  | cons hd t ih =>
    obtain ⟨q, w⟩ := hd
    simp only [List.map_cons, List.mem_cons, not_or] at h
    rw [mapLookup, if_neg (fun he => h.1 he.symm)]
    exact ih h.2

theorem sorted_keys_nodup {β : Type} {m : List (String × β)} (hm : keysSorted m) :
    (m.map Prod.fst).Nodup := by
  induction m with
  | nil => exact List.nodup_nil
  | cons hd t ih =>
    rcases List.pairwise_cons.mp hm with ⟨hq, ht⟩
    rw [List.map_cons]
    refine List.nodup_cons.mpr ⟨?_, ih ht⟩
    intro hmem
    rcases List.mem_map.mp hmem with ⟨y, hy, hxy⟩
    have := hq y hy
    rw [hxy] at this
    exact absurd this (by simp [strLt_irrefl])

theorem mem_iff_lookup {β : Type} {m : List (String × β)} (hm : keysSorted m)
    (n : String) (s : β) : (n, s) ∈ m ↔ mapLookup n m = some s := by
  induction m with
  | nil => simp [mapLookup]
  | cons hd t ih =>
    obtain ⟨q, w⟩ := hd
    rcases List.pairwise_cons.mp hm with ⟨hq, ht⟩
    rw [mapLookup]
    constructor
    · intro hmem
      rcases List.mem_cons.mp hmem with h | h
      · rw [(Prod.mk.injEq _ _ _ _).mp h.symm |>.1, if_pos rfl]
        rw [(Prod.mk.injEq _ _ _ _).mp h.symm |>.2]
      · have hqn : q ≠ n := by
          intro he
          have := hq (n, s) h
          rw [he] at this
          exact absurd this (by simp [strLt_irrefl])
        rw [if_neg hqn]
        exact (ih ht).mp h
    · intro hl
      by_cases hqn : q = n
      · rw [if_pos hqn] at hl
        subst hqn
        rw [Option.some_inj.mp hl]
        exact List.mem_cons_self _ _
      · rw [if_neg hqn] at hl
        exact List.mem_cons_of_mem _ ((ih ht).mpr hl)

theorem scriptsOfEntries_spec :
    ∀ (es : List (String × Json)) (acc : List (String × String)),
    (es.map Prod.fst).Nodup →
    (∀ kv ∈ es, isStrVal kv.2 = true) →
    (∀ k ∈ es.map Prod.fst, k ∉ acc.map Prod.fst) →
    scriptsOfEntries es acc = some (acc ++ es.map stripStr) := by
  intro es
  induction es with
  | nil => intro acc _ _ _; simp [scriptsOfEntries]
  | cons hd rest ih =>
    intro acc hnd hstr hfresh
    obtain ⟨k, v⟩ := hd
    have hv := hstr (k, v) (List.mem_cons_self _ _)
    cases v with
    | str s =>
      rw [scriptsOfEntries]
      have hkacc : k ∉ acc.map Prod.fst :=
        hfresh k (by simp)
      have hnd2 : k ∉ rest.map Prod.fst ∧ (rest.map Prod.fst).Nodup := by
        rw [List.map_cons] at hnd
        exact List.nodup_cons.mp hnd
      have hknr : k ∉ rest.map Prod.fst := hnd2.1
      rw [ih (insertKeep k s acc)
        hnd2.2
        (fun kv hkv => hstr kv (List.mem_cons_of_mem _ hkv))
        (fun q hq => by
          rw [insertKeep_fresh k s hkacc]
          simp only [List.map_append, List.mem_append, List.map_cons, List.map_nil]
          rintro (h | h)
          · exact hfresh q (by simp [hq]) h
          · simp at h
            rw [h] at hq
            exact hknr hq)]
      rw [insertKeep_fresh k s hkacc]
      simp [stripStr, List.append_assoc]
    | null => exact absurd hv (by simp [isStrVal])
    | bool b => exact absurd hv (by simp [isStrVal])
    | num n => exact absurd hv (by simp [isStrVal])
    | arr l => exact absurd hv (by simp [isStrVal])
    | obj l => exact absurd hv (by simp [isStrVal])

theorem renderScripts_strip (es : List (String × Json))
    (h : ∀ kv ∈ es, isStrVal kv.2 = true) :
    renderScripts (es.map stripStr) = .obj es := by
  induction es with
  | nil => rfl
  | cons hd rest ih =>
    obtain ⟨k, v⟩ := hd
    have hv := h (k, v) (List.mem_cons_self _ _)
    have ihr := ih (fun kv hkv => h kv (List.mem_cons_of_mem _ hkv))
    cases v with
    | str s =>
      have ihr2 : (rest.map stripStr).map (fun kv => (kv.1, Json.str kv.2)) = rest := by
        rw [renderScripts] at ihr
        exact Json.obj.inj ihr
      rw [renderScripts]
      simp only [List.map_cons]
      rw [show stripStr (k, Json.str s) = (k, s) from rfl]
      simp only [List.map_cons]
      rw [ihr2]
    | null => exact absurd hv (by simp [isStrVal])
    | bool b => exact absurd hv (by simp [isStrVal])
    | num n => exact absurd hv (by simp [isStrVal])
    | arr l => exact absurd hv (by simp [isStrVal])
    | obj l => exact absurd hv (by simp [isStrVal])

theorem depsOfEntries_spec :
    ∀ (es : List (String × Json)) (acc : Dependencies),
    (es.map Prod.fst).Nodup →
    (∀ kv ∈ es, isStrVal kv.2 = true ∧ (PackageName.new kv.1).isOk = true) →
    keysSorted acc →
    ∃ d, depsOfEntries es acc = some d ∧ keysSorted d ∧
      (∀ n s2, mapLookup n es = some (.str s2) → mapLookup n d = some s2) ∧
      (∀ n, mapLookup n es = none → mapLookup n d = mapLookup n acc) := by
  intro es
  induction es with
  | nil =>
    intro acc _ _ hs
    exact ⟨acc, rfl, hs, fun n s2 h => by simp [mapLookup] at h, fun n _ => rfl⟩
  | cons hd rest ih =>
    intro acc hnd hok hs
    obtain ⟨k, v⟩ := hd
    have hhd := hok (k, v) (List.mem_cons_self _ _)
    have hnd2 : k ∉ rest.map Prod.fst ∧ (rest.map Prod.fst).Nodup := by
      rw [List.map_cons] at hnd
      exact List.nodup_cons.mp hnd
    cases v with
    | str s =>
      rw [depsOfEntries, if_pos hhd.2]
      have hs2 : keysSorted (depsInsert k s acc) := insertWith_sorted _ k hs
      rcases ih (depsInsert k s acc) hnd2.2
        (fun kv hkv => hok kv (List.mem_cons_of_mem _ hkv)) hs2 with ⟨d, hd1, hd2, hd3, hd4⟩
      have hinsert : ∀ n, mapLookup n (depsInsert k s acc) =
          if n = k then some s else mapLookup n acc := by
        intro n
        rw [show depsInsert k s acc = mapInsertWith (fun _ => s) k acc from rfl,
          lookup_insertWith _ _ _ hs]
      refine ⟨d, hd1, hd2, ?_, ?_⟩
      · intro n s2 h
        rw [mapLookup] at h
        by_cases hkn : k = n
        · rw [if_pos hkn] at h
          have hs2eq : s = s2 := by
            have := Option.some_inj.mp h
            exact Json.str.inj this
          subst hkn
          rw [hd4 k (mapLookup_none_of_not_mem hnd2.1), hinsert k, if_pos rfl, hs2eq]
        · rw [if_neg hkn] at h
          exact hd3 n s2 h
      · intro n h
        rw [mapLookup] at h
        by_cases hkn : k = n
        · rw [if_pos hkn] at h
          exact absurd h (by simp)
        · rw [if_neg hkn] at h
          rw [hd4 n h, hinsert n, if_neg (fun he => hkn he.symm)]
    | null => exact absurd hhd.1 (by simp [isStrVal])
    | bool b => exact absurd hhd.1 (by simp [isStrVal])
    | num n => exact absurd hhd.1 (by simp [isStrVal])
    | arr l => exact absurd hhd.1 (by simp [isStrVal])
    | obj l => exact absurd hhd.1 (by simp [isStrVal])

theorem fieldResult_cons_ne {α : Type} (key k : String) (v : Json)
    (entries : List (String × Json)) (p : Json → Option α) (d : α) (h : ¬ k = key) :
    fieldResult key ((k, v) :: entries) p d = fieldResult key entries p d := by
  unfold fieldResult
  rw [mapLookup, if_neg h]

theorem fieldResult_cons_eq {α : Type} (key : String) (v : Json)
    (entries : List (String × Json)) (p : Json → Option α) (d : α) :
    fieldResult key ((key, v) :: entries) p d = (p v).getD d := by
  unfold fieldResult
  rw [mapLookup, if_pos rfl]

theorem fieldResult_absent {α : Type} (key : String)
    (entries : List (String × Json)) (p : Json → Option α) (d : α)
    (h : key ∉ entries.map Prod.fst) :
    fieldResult key entries p d = d := by
  unfold fieldResult
  rw [mapLookup_none_of_not_mem h]

theorem visit_map_spec :
    ∀ (entries : List (String × Json)), ∀ (acc : ParseAcc),
    (entries.map Prod.fst).Nodup →
    (∀ kv ∈ entries, wellTypedEntry kv = true) →
    (∀ k ∈ entries.map Prod.fst, k ∉ acc.storage.map Prod.fst) →
    ("name" ∈ entries.map Prod.fst → acc.name = none) →
    ∃ acc', visit_map entries acc = some acc' ∧
      acc'.storage = acc.storage ++ entries.map entryMarker ∧
      acc'.name = fieldResult "name" entries parseNameField acc.name ∧
      acc'.scripts = fieldResult "scripts" entries parseScripts acc.scripts ∧
      acc'.dependencies = fieldResult "dependencies" entries parseDeps acc.dependencies ∧
      acc'.dev_dependencies =
        fieldResult "devDependencies" entries parseDeps acc.dev_dependencies ∧
      acc'.peer_dependencies =
        fieldResult "peerDependencies" entries parseDeps acc.peer_dependencies ∧
      acc'.optional_dependencies =
        fieldResult "optionalDependencies" entries parseDeps acc.optional_dependencies := by
  intro entries
  induction entries with
  | nil =>
    intro acc _ _ _ _
    exact ⟨acc, rfl, (List.append_nil _).symm, rfl, rfl, rfl, rfl, rfl, rfl⟩
  | cons hd rest ih =>
    intro acc hnd hwt hfresh hname
    obtain ⟨key, v⟩ := hd
    have hnd2 : key ∉ rest.map Prod.fst ∧ (rest.map Prod.fst).Nodup := by
      rw [List.map_cons] at hnd
      exact List.nodup_cons.mp hnd
    have hwthd := hwt (key, v) (List.mem_cons_self _ _)
    have hkey_fresh : key ∉ acc.storage.map Prod.fst := hfresh key (by simp)
    have hwtr : ∀ kv ∈ rest, wellTypedEntry kv = true :=
      fun kv hkv => hwt kv (List.mem_cons_of_mem _ hkv)
    have hfresh2 : ∀ X, ∀ q ∈ rest.map Prod.fst,
        q ∉ (insertKeep key X acc.storage).map Prod.fst := by
      intro X q hq
      rw [insertKeep_fresh key X hkey_fresh]
      simp only [List.map_append, List.mem_append, List.map_cons, List.map_nil]
      rintro (h | h)
      · exact hfresh q (by simp [hq]) h
      · simp only [List.mem_singleton] at h
        rw [h] at hq
        exact hnd2.1 hq
    by_cases hk1 : key = "name"
    · subst hk1
      have hn0 : acc.name = none := hname (by simp)
      rw [wellTypedEntry] at hwthd
      simp only [if_pos rfl] at hwthd
      cases hnf : parseNameField v with
      | none => rw [hnf] at hwthd; exact absurd hwthd (by simp)
      | some newName =>
        rw [visit_map, if_pos rfl, hn0, hnf]
        rcases ih { acc with
            name := newName
            storage := insertKeep "name" .storedElsewhere acc.storage }
          hnd2.2 hwtr (hfresh2 _) (fun hm => absurd hm hnd2.1)
          with ⟨acc', h1, h2, h3, h4, h5, h6, h7, h8⟩
        refine ⟨acc', h1, ?_, ?_, ?_, ?_, ?_, ?_, ?_⟩
        · rw [h2]
          simp only []
          rw [insertKeep_fresh _ _ hkey_fresh, List.map_cons,
            show entryMarker ("name", v) = ("name", .storedElsewhere) by
              simp [entryMarker],
            List.append_assoc]
          rfl
        · rw [h3, fieldResult_absent _ _ _ _ hnd2.1, fieldResult_cons_eq, hnf]
          rfl
        · rw [h4, fieldResult_cons_ne "scripts" "name" v rest
            parseScripts acc.scripts (by decide)]
        · rw [h5, fieldResult_cons_ne "dependencies" "name" v rest
            parseDeps acc.dependencies (by decide)]
        · rw [h6, fieldResult_cons_ne "devDependencies" "name" v rest
            parseDeps acc.dev_dependencies (by decide)]
        · rw [h7, fieldResult_cons_ne "peerDependencies" "name" v rest
            parseDeps acc.peer_dependencies (by decide)]
        · rw [h8, fieldResult_cons_ne "optionalDependencies" "name" v rest
            parseDeps acc.optional_dependencies (by decide)]
    by_cases hk2 : key = "scripts"
    · subst hk2
      rw [wellTypedEntry] at hwthd
      rw [if_neg (by decide : ¬ ("scripts" : String) = "name"), if_pos rfl] at hwthd
      cases hps : parseScripts v with
      | none => rw [hps] at hwthd; exact absurd hwthd (by simp)
      | some sc =>
        rw [visit_map, if_neg (by decide : ¬ ("scripts" : String) = "name"),
          if_pos rfl, hps]
        rcases ih { acc with
            scripts := sc
            storage := insertKeep "scripts" .storedElsewhere acc.storage }
          hnd2.2 hwtr (hfresh2 _) (fun hm => hname (List.mem_cons_of_mem _ hm))
          with ⟨acc', h1, h2, h3, h4, h5, h6, h7, h8⟩
        refine ⟨acc', h1, ?_, ?_, ?_, ?_, ?_, ?_, ?_⟩
        · rw [h2]
          simp only []
          rw [insertKeep_fresh _ _ hkey_fresh, List.map_cons,
            show entryMarker ("scripts", v) = ("scripts", .storedElsewhere) by
              simp [entryMarker],
            List.append_assoc]
          rfl
        · rw [h3, fieldResult_cons_ne "name" "scripts" v rest
            parseNameField acc.name (by decide)]
        · rw [h4, fieldResult_absent _ _ _ _ hnd2.1, fieldResult_cons_eq, hps]
          rfl
        · rw [h5, fieldResult_cons_ne "dependencies" "scripts" v rest
            parseDeps acc.dependencies (by decide)]
        · rw [h6, fieldResult_cons_ne "devDependencies" "scripts" v rest
            parseDeps acc.dev_dependencies (by decide)]
        · rw [h7, fieldResult_cons_ne "peerDependencies" "scripts" v rest
            parseDeps acc.peer_dependencies (by decide)]
        · rw [h8, fieldResult_cons_ne "optionalDependencies" "scripts" v rest
            parseDeps acc.optional_dependencies (by decide)]
    by_cases hk3 : key = "dependencies"
    · subst hk3
      rw [wellTypedEntry] at hwthd
      rw [if_neg (by decide : ¬ ("dependencies" : String) = "name"),
        if_neg (by decide : ¬ ("dependencies" : String) = "scripts"),
        if_pos (by decide : ("dependencies" : String) ∈ DEPENDENCY_TYPES)] at hwthd
      cases hpd : parseDeps v with
      | none => rw [hpd] at hwthd; exact absurd hwthd (by simp)
      | some d =>
        rw [visit_map, if_neg (by decide : ¬ ("dependencies" : String) = "name"),
          if_neg (by decide : ¬ ("dependencies" : String) = "scripts"),
          if_pos rfl, hpd]
        rcases ih { acc with
            dependencies := d
            storage := insertKeep "dependencies" .storedElsewhere acc.storage }
          hnd2.2 hwtr (hfresh2 _) (fun hm => hname (List.mem_cons_of_mem _ hm))
          with ⟨acc', h1, h2, h3, h4, h5, h6, h7, h8⟩
        refine ⟨acc', h1, ?_, ?_, ?_, ?_, ?_, ?_, ?_⟩
        · rw [h2]
          simp only []
          rw [insertKeep_fresh _ _ hkey_fresh, List.map_cons,
            show entryMarker ("dependencies", v) = ("dependencies", .storedElsewhere) by
              simp [entryMarker, DEPENDENCY_TYPES],
            List.append_assoc]
          rfl
        · rw [h3, fieldResult_cons_ne "name" "dependencies" v rest
            parseNameField acc.name (by decide)]
        · rw [h4, fieldResult_cons_ne "scripts" "dependencies" v rest
            parseScripts acc.scripts (by decide)]
        · rw [h5, fieldResult_absent _ _ _ _ hnd2.1, fieldResult_cons_eq, hpd]
          rfl
        · rw [h6, fieldResult_cons_ne "devDependencies" "dependencies" v rest
            parseDeps acc.dev_dependencies (by decide)]
        · rw [h7, fieldResult_cons_ne "peerDependencies" "dependencies" v rest
            parseDeps acc.peer_dependencies (by decide)]
        · rw [h8, fieldResult_cons_ne "optionalDependencies" "dependencies" v rest
            parseDeps acc.optional_dependencies (by decide)]
    by_cases hk4 : key = "devDependencies"
    · subst hk4
      rw [wellTypedEntry] at hwthd
      rw [if_neg (by decide : ¬ ("devDependencies" : String) = "name"),
        if_neg (by decide : ¬ ("devDependencies" : String) = "scripts"),
        if_pos (by decide : ("devDependencies" : String) ∈ DEPENDENCY_TYPES)] at hwthd
      cases hpd : parseDeps v with
      | none => rw [hpd] at hwthd; exact absurd hwthd (by simp)
      | some d =>
        rw [visit_map, if_neg (by decide : ¬ ("devDependencies" : String) = "name"),
          if_neg (by decide : ¬ ("devDependencies" : String) = "scripts"),
          if_neg (by decide : ¬ ("devDependencies" : String) = "dependencies"),
          if_pos rfl, hpd]
        rcases ih { acc with
            dev_dependencies := d
            storage := insertKeep "devDependencies" .storedElsewhere acc.storage }
          hnd2.2 hwtr (hfresh2 _) (fun hm => hname (List.mem_cons_of_mem _ hm))
          with ⟨acc', h1, h2, h3, h4, h5, h6, h7, h8⟩
        refine ⟨acc', h1, ?_, ?_, ?_, ?_, ?_, ?_, ?_⟩
        · rw [h2]
          simp only []
          rw [insertKeep_fresh _ _ hkey_fresh, List.map_cons,
            show entryMarker ("devDependencies", v) = ("devDependencies", .storedElsewhere) by
              simp [entryMarker, DEPENDENCY_TYPES],
            List.append_assoc]
          rfl
        · rw [h3, fieldResult_cons_ne "name" "devDependencies" v rest
            parseNameField acc.name (by decide)]
        · rw [h4, fieldResult_cons_ne "scripts" "devDependencies" v rest
            parseScripts acc.scripts (by decide)]
        · rw [h5, fieldResult_cons_ne "dependencies" "devDependencies" v rest
            parseDeps acc.dependencies (by decide)]
        · rw [h6, fieldResult_absent _ _ _ _ hnd2.1, fieldResult_cons_eq, hpd]
          rfl
        · rw [h7, fieldResult_cons_ne "peerDependencies" "devDependencies" v rest
            parseDeps acc.peer_dependencies (by decide)]
        · rw [h8, fieldResult_cons_ne "optionalDependencies" "devDependencies" v rest
            parseDeps acc.optional_dependencies (by decide)]
    by_cases hk5 : key = "peerDependencies"
    · subst hk5
      rw [wellTypedEntry] at hwthd
      rw [if_neg (by decide : ¬ ("peerDependencies" : String) = "name"),
        if_neg (by decide : ¬ ("peerDependencies" : String) = "scripts"),
        if_pos (by decide : ("peerDependencies" : String) ∈ DEPENDENCY_TYPES)] at hwthd
      cases hpd : parseDeps v with
      | none => rw [hpd] at hwthd; exact absurd hwthd (by simp)
      | some d =>
        rw [visit_map, if_neg (by decide : ¬ ("peerDependencies" : String) = "name"),
          if_neg (by decide : ¬ ("peerDependencies" : String) = "scripts"),
          if_neg (by decide : ¬ ("peerDependencies" : String) = "dependencies"),
          if_neg (by decide : ¬ ("peerDependencies" : String) = "devDependencies"),
          if_pos rfl, hpd]
        rcases ih { acc with
            peer_dependencies := d
            storage := insertKeep "peerDependencies" .storedElsewhere acc.storage }
          hnd2.2 hwtr (hfresh2 _) (fun hm => hname (List.mem_cons_of_mem _ hm))
          with ⟨acc', h1, h2, h3, h4, h5, h6, h7, h8⟩
        refine ⟨acc', h1, ?_, ?_, ?_, ?_, ?_, ?_, ?_⟩
        · rw [h2]
          simp only []
          rw [insertKeep_fresh _ _ hkey_fresh, List.map_cons,
            show entryMarker ("peerDependencies", v) = ("peerDependencies", .storedElsewhere) by
              simp [entryMarker, DEPENDENCY_TYPES],
            List.append_assoc]
          rfl
        · rw [h3, fieldResult_cons_ne "name" "peerDependencies" v rest
            parseNameField acc.name (by decide)]
        · rw [h4, fieldResult_cons_ne "scripts" "peerDependencies" v rest
            parseScripts acc.scripts (by decide)]
        · rw [h5, fieldResult_cons_ne "dependencies" "peerDependencies" v rest
            parseDeps acc.dependencies (by decide)]
        · rw [h6, fieldResult_cons_ne "devDependencies" "peerDependencies" v rest
            parseDeps acc.dev_dependencies (by decide)]
        · rw [h7, fieldResult_absent _ _ _ _ hnd2.1, fieldResult_cons_eq, hpd]
          rfl
        · rw [h8, fieldResult_cons_ne "optionalDependencies" "peerDependencies" v rest
            parseDeps acc.optional_dependencies (by decide)]
    by_cases hk6 : key = "optionalDependencies"
    · subst hk6
      rw [wellTypedEntry] at hwthd
      rw [if_neg (by decide : ¬ ("optionalDependencies" : String) = "name"),
        if_neg (by decide : ¬ ("optionalDependencies" : String) = "scripts"),
        if_pos (by decide : ("optionalDependencies" : String) ∈ DEPENDENCY_TYPES)] at hwthd
      cases hpd : parseDeps v with
      | none => rw [hpd] at hwthd; exact absurd hwthd (by simp)
      | some d =>
        rw [visit_map, if_neg (by decide : ¬ ("optionalDependencies" : String) = "name"),
          if_neg (by decide : ¬ ("optionalDependencies" : String) = "scripts"),
          if_neg (by decide : ¬ ("optionalDependencies" : String) = "dependencies"),
          if_neg (by decide : ¬ ("optionalDependencies" : String) = "devDependencies"),
          if_neg (by decide : ¬ ("optionalDependencies" : String) = "peerDependencies"),
          if_pos rfl, hpd]
        rcases ih { acc with
            optional_dependencies := d
            storage := insertKeep "optionalDependencies" .storedElsewhere acc.storage }
          hnd2.2 hwtr (hfresh2 _) (fun hm => hname (List.mem_cons_of_mem _ hm))
          with ⟨acc', h1, h2, h3, h4, h5, h6, h7, h8⟩
        refine ⟨acc', h1, ?_, ?_, ?_, ?_, ?_, ?_, ?_⟩
        · rw [h2]
          simp only []
          rw [insertKeep_fresh _ _ hkey_fresh, List.map_cons,
            show entryMarker ("optionalDependencies", v) = ("optionalDependencies", .storedElsewhere) by
              simp [entryMarker, DEPENDENCY_TYPES],
            List.append_assoc]
          rfl
        · rw [h3, fieldResult_cons_ne "name" "optionalDependencies" v rest
            parseNameField acc.name (by decide)]
        · rw [h4, fieldResult_cons_ne "scripts" "optionalDependencies" v rest
            parseScripts acc.scripts (by decide)]
        · rw [h5, fieldResult_cons_ne "dependencies" "optionalDependencies" v rest
            parseDeps acc.dependencies (by decide)]
        · rw [h6, fieldResult_cons_ne "devDependencies" "optionalDependencies" v rest
            parseDeps acc.dev_dependencies (by decide)]
        · rw [h7, fieldResult_cons_ne "peerDependencies" "optionalDependencies" v rest
            parseDeps acc.peer_dependencies (by decide)]
        · rw [h8, fieldResult_absent _ _ _ _ hnd2.1, fieldResult_cons_eq, hpd]
          rfl
    rw [wellTypedEntry] at hwthd
    have hmemdep : ¬ key ∈ DEPENDENCY_TYPES := by
      simp only [DEPENDENCY_TYPES, List.mem_cons, List.not_mem_nil, or_false]
      push_neg
      exact ⟨hk3, hk4, hk5, hk6⟩
    rw [visit_map, if_neg hk1, if_neg hk2, if_neg hk3, if_neg hk4, if_neg hk5, if_neg hk6]
    rcases ih { acc with storage := insertKeep key (.value v) acc.storage }
      hnd2.2 hwtr (hfresh2 _) (fun hm => hname (List.mem_cons_of_mem _ hm))
      with ⟨acc', h1, h2, h3, h4, h5, h6, h7, h8⟩
    refine ⟨acc', h1, ?_, ?_, ?_, ?_, ?_, ?_, ?_⟩
    · rw [h2]
      simp only []
      rw [insertKeep_fresh _ _ hkey_fresh, List.map_cons,
        show entryMarker (key, v) = (key, .value v) by
          simp [entryMarker, hk1, hk2, hmemdep],
        List.append_assoc]
      rfl
    · rw [h3, fieldResult_cons_ne "name" key v rest parseNameField
        acc.name (fun he => hk1 he)]
    · rw [h4, fieldResult_cons_ne "scripts" key v rest parseScripts
        acc.scripts (fun he => hk2 he)]
    · rw [h5, fieldResult_cons_ne "dependencies" key v rest parseDeps
        acc.dependencies (fun he => hk3 he)]
    · rw [h6, fieldResult_cons_ne "devDependencies" key v rest parseDeps
        acc.dev_dependencies (fun he => hk4 he)]
    · rw [h7, fieldResult_cons_ne "peerDependencies" key v rest parseDeps
        acc.peer_dependencies (fun he => hk5 he)]
    · rw [h8, fieldResult_cons_ne "optionalDependencies" key v rest parseDeps
        acc.optional_dependencies (fun he => hk6 he)]

theorem mapLookup_isSome_of_mem_keys {β : Type} {k : String} {m : List (String × β)}
    (h : k ∈ m.map Prod.fst) : ∃ v, mapLookup k m = some v := by
  induction m with
  | nil => simp at h
  | cons hd t ih =>
    obtain ⟨q, w⟩ := hd
    by_cases hq : q = k
    · exact ⟨w, by rw [mapLookup, if_pos hq]⟩
    · rw [List.map_cons] at h
      rcases List.mem_cons.mp h with h2 | h2
      · exact absurd h2.symm hq
      · rcases ih h2 with ⟨v, hv⟩
        exact ⟨v, by rw [mapLookup, if_neg hq]; exact hv⟩

theorem mapLookup_mem {β : Type} {k : String} {m : List (String × β)} {v : β}
    (h : mapLookup k m = some v) : (k, v) ∈ m := by
  induction m with
  | nil => simp [mapLookup] at h
  | cons hd t ih =>
    obtain ⟨q, w⟩ := hd
    rw [mapLookup] at h
    by_cases hq : q = k
    · rw [if_pos hq] at h
      rw [← hq, ← Option.some_inj.mp h]
      exact List.mem_cons_self _ _
    · rw [if_neg hq] at h
      exact List.mem_cons_of_mem _ (ih h)

theorem parseNameField_shape {v : Json} {onp : Option PackageName}
    (h : parseNameField v = some onp) : ∃ pn, onp = some pn := by
  cases v with
  | str s =>
    rw [parseNameField] at h
    cases hnew : PackageName.new s with
    | ok pn =>
      rw [hnew] at h
      exact ⟨pn, (Option.some_inj.mp h).symm⟩
    | error e => rw [hnew] at h; exact absurd h (by simp)
  | null => exact absurd h (by simp [parseNameField])
  | bool b => exact absurd h (by simp [parseNameField])
  | num n => exact absurd h (by simp [parseNameField])
  | arr l => exact absurd h (by simp [parseNameField])
  | obj l => exact absurd h (by simp [parseNameField])

theorem parse_wf (entries : List (String × Json)) (hwf : wfDoc entries = true) :
    ∃ pj, parsePackageJson (.obj entries) = some pj ∧
      pj.storage = addMissingDepMarkers (entries.map entryMarker) ∧
      fieldResult "name" entries parseNameField none = some pj.name ∧
      pj.scripts = fieldResult "scripts" entries parseScripts [] ∧
      pj.dependencies = fieldResult "dependencies" entries parseDeps [] ∧
      pj.dev_dependencies = fieldResult "devDependencies" entries parseDeps [] ∧
      pj.peer_dependencies = fieldResult "peerDependencies" entries parseDeps [] ∧
      pj.optional_dependencies = fieldResult "optionalDependencies" entries parseDeps [] := by
  rw [wfDoc, Bool.and_eq_true, Bool.and_eq_true] at hwf
  obtain ⟨⟨hnd, hmem⟩, hall⟩ := hwf
  rw [decide_eq_true_eq] at hnd hmem
  have hwt : ∀ kv ∈ entries, wellTypedEntry kv = true := by
    intro kv hkv
    have := List.all_eq_true.mp hall kv hkv
    rw [wfEntry, Bool.and_eq_true] at this
    exact this.1
  rcases visit_map_spec entries initAcc hnd hwt (by simp [initAcc]) (fun _ => rfl)
    with ⟨acc', h1, h2, h3, h4, h5, h6, h7, h8⟩
  rcases mapLookup_isSome_of_mem_keys hmem with ⟨v, hv⟩
  have hvwt := hwt ("name", v) (mapLookup_mem hv)
  rw [wellTypedEntry] at hvwt
  simp only [if_pos rfl] at hvwt
  cases hnf : parseNameField v with
  | none => rw [hnf] at hvwt; exact absurd hvwt (by simp)
  | some onp =>
    rcases parseNameField_shape hnf with ⟨pn, hpn⟩
    subst hpn
    have hname : acc'.name = some pn := by
      rw [h3]
      unfold fieldResult
      rw [hv]
      show (parseNameField v).getD initAcc.name = some pn
      rw [hnf]
      rfl
    refine ⟨⟨pn, acc'.dependencies, acc'.dev_dependencies, acc'.optional_dependencies,
      acc'.peer_dependencies, acc'.scripts, addMissingDepMarkers acc'.storage⟩, ?_, ?_,
      ?_, ?_, ?_, ?_, ?_, ?_⟩
    · rw [parsePackageJson, h1]
      dsimp only
      rw [hname]
    · simp only []
      rw [h2, show initAcc.storage = [] from rfl, List.nil_append]
    · unfold fieldResult
      rw [hv]
      show (parseNameField v).getD none = _
      rw [hnf]
      rfl
    · exact h4
    · exact h5
    · exact h6
    · exact h7
    · exact h8

theorem storageContains_append (st st2 : List (String × PkgJsonValue)) (k : String) :
    storageContains (st ++ st2) k = (storageContains st k || storageContains st2 k) := by
  unfold storageContains
  exact List.any_append

theorem storageContains_nil (k : String) : storageContains [] k = false := rfl

theorem storageContains_cons (d k : String) (v : PkgJsonValue)
    (st : List (String × PkgJsonValue)) :
    storageContains ((d, v) :: st) k = (decide (d = k) || storageContains st k) := by
  unfold storageContains
  simp [List.any_cons]

theorem addMissing_eq (st : List (String × PkgJsonValue)) :
    addMissingDepMarkers st = st ++
      ((DEPENDENCY_TYPES.filter (fun dt => !(storageContains st dt))).map
        (fun dt => (dt, PkgJsonValue.storedElsewhere))) := by
  unfold addMissingDepMarkers DEPENDENCY_TYPES
  simp only [List.foldl_cons, List.foldl_nil, List.filter_cons, List.filter_nil]
  rcases h1 : storageContains st "dependencies" <;>
    rcases h2 : storageContains st "devDependencies" <;>
      rcases h3 : storageContains st "peerDependencies" <;>
        rcases h4 : storageContains st "optionalDependencies" <;>
  simp [h1, h2, h3, h4, storageContains_append, storageContains_cons, storageContains_nil,
    (by decide : ¬ ("dependencies" : String) = "devDependencies"),
    (by decide : ¬ ("dependencies" : String) = "peerDependencies"),
    (by decide : ¬ ("dependencies" : String) = "optionalDependencies"),
    (by decide : ¬ ("devDependencies" : String) = "peerDependencies"),
    (by decide : ¬ ("devDependencies" : String) = "optionalDependencies"),
    (by decide : ¬ ("peerDependencies" : String) = "optionalDependencies"),
    List.append_assoc]

theorem new_ok_name {s : String} {p : PackageName}
    (h : PackageName.new s = .ok p) : p.name = s := by
  rcases new_shape s with hs | ⟨st, hp⟩
  · rw [hs] at h
    exact absurd h (by simp)
  · rw [hp] at h
    rw [← Except.ok.inj h]

theorem mem_lookup_nodup {β : Type} {m : List (String × β)}
    (hnd : (m.map Prod.fst).Nodup) {k : String} {v : β}
    (h : (k, v) ∈ m) : mapLookup k m = some v := by
  induction m with
  | nil => simp at h
  | cons hd t ih =>
    obtain ⟨q, w⟩ := hd
    have hnd2 : q ∉ t.map Prod.fst ∧ (t.map Prod.fst).Nodup := by
      rw [List.map_cons] at hnd
      exact List.nodup_cons.mp hnd
    rcases List.mem_cons.mp h with h2 | h2
    · obtain ⟨hk, hv⟩ := Prod.mk.injEq _ _ _ _ ▸ h2.symm
      rw [mapLookup, if_pos hk, hv]
    · have hqk : ¬ q = k := by
        intro he
        apply hnd2.1
        rw [he]
        exact List.mem_map_of_mem Prod.fst h2
      rw [mapLookup, if_neg hqk]
      exact ih hnd2.2 h2

theorem entryMarker_fst (kv : String × Json) : (entryMarker kv).1 = kv.1 := by
  unfold entryMarker
  split <;> rfl

theorem storageContains_iff (st : List (String × PkgJsonValue)) (k : String) :
    storageContains st k = true ↔ k ∈ st.map Prod.fst := by
  induction st with
  | nil => simp [storageContains_nil]
  | cons hd t ih =>
    obtain ⟨q, w⟩ := hd
    rw [storageContains_cons, Bool.or_eq_true, List.map_cons]
    simp only [decide_eq_true_eq, List.mem_cons]
    constructor
    · rintro (h | h)
      · exact Or.inl h.symm
      · exact Or.inr (ih.mp h)
    · rintro (h | h)
      · exact Or.inl h.symm
      · exact Or.inr (ih.mpr h)

theorem scriptsOfEntries_shape :
    ∀ (es : List (String × Json)) (acc sc : List (String × String)),
    scriptsOfEntries es acc = some sc → ∀ kv ∈ es, isStrVal kv.2 = true := by
  intro es
  induction es with
  | nil => intro acc sc _ kv hkv; simp at hkv
  | cons hd rest ih =>
    intro acc sc h kv hkv
    obtain ⟨k, v⟩ := hd
    cases v with
    | str s =>
      rcases List.mem_cons.mp hkv with h2 | h2
      · rw [h2]; rfl
      · rw [scriptsOfEntries] at h
        exact ih _ _ h kv h2
    | null =>
      rw [show scriptsOfEntries ((k, Json.null) :: rest) acc = none from rfl] at h
      exact absurd h (by simp)
    | bool b =>
      rw [show scriptsOfEntries ((k, (Json.bool b)) :: rest) acc = none from rfl] at h
      exact absurd h (by simp)
    | num n =>
      rw [show scriptsOfEntries ((k, (Json.num n)) :: rest) acc = none from rfl] at h
      exact absurd h (by simp)
    | arr l =>
      rw [show scriptsOfEntries ((k, (Json.arr l)) :: rest) acc = none from rfl] at h
      exact absurd h (by simp)
    | obj l =>
      rw [show scriptsOfEntries ((k, (Json.obj l)) :: rest) acc = none from rfl] at h
      exact absurd h (by simp)

theorem depsOfEntries_shape :
    ∀ (es : List (String × Json)) (acc d : Dependencies),
    depsOfEntries es acc = some d →
    ∀ kv ∈ es, isStrVal kv.2 = true ∧ (PackageName.new kv.1).isOk = true := by
  intro es
  induction es with
  | nil => intro acc d _ kv hkv; simp at hkv
  | cons hd rest ih =>
    intro acc d h kv hkv
    obtain ⟨k, v⟩ := hd
    cases v with
    | str s =>
      rw [depsOfEntries] at h
      by_cases hok : (PackageName.new k).isOk
      · rw [if_pos hok] at h
        rcases List.mem_cons.mp hkv with h2 | h2
        · rw [h2]
          exact ⟨rfl, hok⟩
        · exact ih _ _ h kv h2
      · rw [if_neg hok] at h
        exact absurd h (by simp)
    | null =>
      rw [show depsOfEntries ((k, Json.null) :: rest) acc = none from rfl] at h
      exact absurd h (by simp)
    | bool b =>
      rw [show depsOfEntries ((k, (Json.bool b)) :: rest) acc = none from rfl] at h
      exact absurd h (by simp)
    | num n =>
      rw [show depsOfEntries ((k, (Json.num n)) :: rest) acc = none from rfl] at h
      exact absurd h (by simp)
    | arr l =>
      rw [show depsOfEntries ((k, (Json.arr l)) :: rest) acc = none from rfl] at h
      exact absurd h (by simp)
    | obj l =>
      rw [show depsOfEntries ((k, (Json.obj l)) :: rest) acc = none from rfl] at h
      exact absurd h (by simp)

theorem filterMap_keys_filter {f : (String × Json) → Option (String × Json)}
    {drop : (String × Json) → Bool} :
    ∀ l : List (String × Json),
    (∀ kv ∈ l, (match f kv with
      | some out => out.1 = kv.1 ∧ drop kv = false
      | none => drop kv = true)) →
    (l.filterMap f).map Prod.fst = (l.filter (fun kv => !(drop kv))).map Prod.fst := by
  intro l
  induction l with
  | nil => intro _; rfl
  | cons hd rest ih =>
    intro h
    have hh := h hd (List.mem_cons_self _ _)
    have hr := ih (fun kv hkv => h kv (List.mem_cons_of_mem _ hkv))
    cases hf : f hd with
    | some out =>
      rw [hf] at hh
      have hh2 : out.1 = hd.1 ∧ drop hd = false := hh
      rw [List.filterMap_cons_some hf,
        List.filter_cons_of_pos (by rw [hh2.2]; rfl), List.map_cons, List.map_cons,
        hh2.1, hr]
    | none =>
      rw [hf] at hh
      have hh2 : drop hd = true := hh
      rw [List.filterMap_cons_none hf, List.filter_cons_of_neg (by rw [hh2]; simp), hr]

theorem serializeEntry_key {pj : PackageJson} {k : String} {x : PkgJsonValue}
    {out : String × Json} (h : serializeEntry pj k x = some out) : out.1 = k := by
  cases x with
  | value j =>
    rw [serializeEntry] at h
    rw [← Option.some_inj.mp h]
  | storedElsewhere =>
    rw [serializeEntry] at h
    split_ifs at h <;> rw [← Option.some_inj.mp h]

/-- C1 (amended): for a well-formed manifest document, parsing succeeds and
re-serializing without mutation reproduces the original top-level key order
with recognized-but-empty sections (an empty `scripts` object or an empty
dependency object) omitted; every passthrough entry is reproduced
byte-for-byte at its position; the `name` entry and a non-empty `scripts`
entry are reproduced byte-for-byte; a non-empty dependency section is
re-emitted key-sorted with exactly the source bindings; and none of the
four dependency keys absent from the source is ever added. -/
theorem c1_roundtrip_order_amended :
    ∀ entries : List (String × Json), wfDoc entries = true →
    ∃ pj, parsePackageJson (.obj entries) = some pj ∧
      ((serializePackageJson pj).map Prod.fst =
        (entries.filter (fun kv => !(emptyRecognized kv))).map Prod.fst) ∧
      (∀ k v, (k, v) ∈ entries → ¬ k = "name" → ¬ k = "scripts" →
        ¬ k ∈ DEPENDENCY_TYPES → (k, v) ∈ serializePackageJson pj) ∧
      (∀ v, ("name", v) ∈ entries → ("name", v) ∈ serializePackageJson pj) ∧
      (∀ v, ("scripts", v) ∈ entries → ¬ v = .obj [] →
        ("scripts", v) ∈ serializePackageJson pj) ∧
      (∀ dk es, dk ∈ DEPENDENCY_TYPES → (dk, .obj es) ∈ entries → ¬ es = [] →
        ∃ d, (dk, renderDeps d) ∈ serializePackageJson pj ∧ keysSorted d ∧
          (∀ n s, ((n, Json.str s) ∈ es ↔ (n, s) ∈ d))) ∧
      (∀ dk, dk ∈ DEPENDENCY_TYPES → ¬ dk ∈ entries.map Prod.fst →
        ¬ dk ∈ (serializePackageJson pj).map Prod.fst) := by
  intro entries hwf
  have hwf2 := hwf
  rw [wfDoc, Bool.and_eq_true, Bool.and_eq_true] at hwf2
  obtain ⟨⟨hnd, hmem⟩, hall⟩ := hwf2
  rw [decide_eq_true_eq] at hnd hmem
  rcases parse_wf entries hwf with ⟨pj, hparse, hst, hnm, hsc, hdd, hdv, hdp, hdo⟩
  have hwt : ∀ kv ∈ entries, wellTypedEntry kv = true := by
    intro kv hkv
    have := List.all_eq_true.mp hall kv hkv
    rw [wfEntry, Bool.and_eq_true] at this
    exact this.1
  have hinner : ∀ kv ∈ entries, (kv.1 = "scripts" ∨ kv.1 ∈ DEPENDENCY_TYPES) →
      objKeysNodup kv.2 = true := by
    intro kv hkv hrec
    have := List.all_eq_true.mp hall kv hkv
    rw [wfEntry, Bool.and_eq_true] at this
    have h2 := this.2
    rw [if_pos hrec] at h2
    exact h2
  have hkeysmm : (entries.map entryMarker).map Prod.fst = entries.map Prod.fst := by
    rw [List.map_map]
    exact List.map_congr_left (fun kv _ => entryMarker_fst kv)
  have habsent : ∀ dk, dk ∈ DEPENDENCY_TYPES → dk ∉ entries.map Prod.fst →
      serializeEntry pj dk .storedElsewhere = none := by
    intro dk hdk hnmem
    rcases show dk = "dependencies" ∨ dk = "devDependencies" ∨
        dk = "peerDependencies" ∨ dk = "optionalDependencies" by
      simpa [DEPENDENCY_TYPES] using hdk with rfl | rfl | rfl | rfl
    · rw [serializeEntry, if_neg (by decide), if_neg (by decide), if_pos (by decide),
        show depsFor pj "dependencies" = pj.dependencies from rfl, hdd,
        fieldResult_absent _ _ _ _ hnmem]
      rfl
    · rw [serializeEntry, if_neg (by decide), if_neg (by decide), if_pos (by decide),
        show depsFor pj "devDependencies" = pj.dev_dependencies from rfl, hdv,
        fieldResult_absent _ _ _ _ hnmem]
      rfl
    · rw [serializeEntry, if_neg (by decide), if_neg (by decide), if_pos (by decide),
        show depsFor pj "peerDependencies" = pj.peer_dependencies from rfl, hdp,
        fieldResult_absent _ _ _ _ hnmem]
      rfl
    · rw [serializeEntry, if_neg (by decide), if_neg (by decide), if_pos (by decide),
        show depsFor pj "optionalDependencies" = pj.optional_dependencies from rfl, hdo,
        fieldResult_absent _ _ _ _ hnmem]
      rfl
  have hser : serializePackageJson pj =
      entries.filterMap
        (fun kv => serializeEntry pj (entryMarker kv).1 (entryMarker kv).2) := by
    unfold serializePackageJson
    rw [hst, addMissing_eq, List.filterMap_append, List.filterMap_map]
    have hnil : (((DEPENDENCY_TYPES.filter
        (fun dt => !(storageContains (entries.map entryMarker) dt))).map
        (fun dt => (dt, PkgJsonValue.storedElsewhere))).filterMap
        (fun kv => serializeEntry pj kv.1 kv.2)) = [] := by
      rw [List.filterMap_eq_nil_iff]
      intro x hx
      rcases List.mem_map.mp hx with ⟨dt, hdt, hxeq⟩
      rcases List.mem_filter.mp hdt with ⟨hdtmem, hdtcon⟩
      have hcon : storageContains (entries.map entryMarker) dt = false := by
        revert hdtcon
        cases storageContains (entries.map entryMarker) dt <;> simp
      have hnotmem : dt ∉ entries.map Prod.fst := by
        intro hm
        rw [← hkeysmm] at hm
        rw [(storageContains_iff _ _).mpr hm] at hcon
        exact absurd hcon (by simp)
      rw [← hxeq]
      exact habsent dt hdtmem hnotmem
    rw [hnil, List.append_nil]
    rfl
  have hemit_name : ∀ v, ("name", v) ∈ entries →
      serializeEntry pj "name" .storedElsewhere = some ("name", v) := by
    intro v hv
    have hlk := mem_lookup_nodup hnd hv
    have hwtv := hwt ("name", v) hv
    rw [wellTypedEntry] at hwtv
    simp only [if_pos rfl] at hwtv
    cases v with
    | str s =>
      rw [parseNameField] at hwtv
      cases hnew : PackageName.new s with
      | error e => rw [hnew] at hwtv; exact absurd hwtv (by simp)
      | ok pn =>
        have hpj : pj.name = pn := by
          have := hnm
          rw [fieldResult] at this
          rw [hlk] at this
          have h2 : (parseNameField (Json.str s)).getD none = some pj.name := this
          rw [parseNameField, hnew] at h2
          exact (Option.some_inj.mp h2).symm
        rw [serializeEntry, if_pos rfl, hpj, new_ok_name hnew]
    | null => exact absurd hwtv (by simp [parseNameField])
    | bool b => exact absurd hwtv (by simp [parseNameField])
    | num n => exact absurd hwtv (by simp [parseNameField])
    | arr l => exact absurd hwtv (by simp [parseNameField])
    | obj l => exact absurd hwtv (by simp [parseNameField])
  have hscripts_shape : ∀ v, ("scripts", v) ∈ entries → ∃ es, v = .obj es := by
    intro v hv
    have hwtv := hwt ("scripts", v) hv
    rw [wellTypedEntry] at hwtv
    rw [if_neg (by decide : ¬ ("scripts" : String) = "name"), if_pos rfl] at hwtv
    cases v with
    | obj es => exact ⟨es, rfl⟩
    | null => exact absurd hwtv (by simp [parseScripts])
    | bool b => exact absurd hwtv (by simp [parseScripts])
    | num n => exact absurd hwtv (by simp [parseScripts])
    | str s => exact absurd hwtv (by simp [parseScripts])
    | arr l => exact absurd hwtv (by simp [parseScripts])
  have hemit_scripts : ∀ es, ("scripts", .obj es) ∈ entries →
      pj.scripts = es.map stripStr ∧
      serializeEntry pj "scripts" .storedElsewhere =
        (if es.isEmpty then none else some ("scripts", .obj es)) := by
    intro es hv
    have hlk := mem_lookup_nodup hnd hv
    have hwtv := hwt ("scripts", .obj es) hv
    rw [wellTypedEntry] at hwtv
    rw [if_neg (by decide : ¬ ("scripts" : String) = "name"), if_pos rfl] at hwtv
    have hesnd : (es.map Prod.fst).Nodup := by
      have := hinner ("scripts", .obj es) hv (Or.inl rfl)
      rw [objKeysNodup] at this
      exact decide_eq_true_eq.mp this
    cases hps : parseScripts (.obj es) with
    | none => rw [hps] at hwtv; exact absurd hwtv (by simp)
    | some sc =>
      have hshape := scriptsOfEntries_shape es [] sc (by rw [parseScripts] at hps; exact hps)
      have hspec := scriptsOfEntries_spec es [] hesnd hshape (by simp)
      have hsc2 : sc = es.map stripStr := by
        rw [parseScripts] at hps
        rw [hps] at hspec
        simpa using Option.some_inj.mp hspec
      have hpjsc : pj.scripts = es.map stripStr := by
        rw [hsc, fieldResult, hlk]
        show (parseScripts (Json.obj es)).getD [] = _
        rw [hps, hsc2]
        rfl
      refine ⟨hpjsc, ?_⟩
      rw [serializeEntry, if_neg (by decide : ¬ ("scripts" : String) = "name"), if_pos rfl,
        hpjsc, renderScripts_strip es hshape]
      cases es with
      | nil => rfl
      | cons e t => rfl
  have hdkne : ∀ dk, dk ∈ DEPENDENCY_TYPES → ¬ dk = "name" ∧ ¬ dk = "scripts" := by
    intro dk hdk
    rcases show dk = "dependencies" ∨ dk = "devDependencies" ∨
        dk = "peerDependencies" ∨ dk = "optionalDependencies" by
      simpa [DEPENDENCY_TYPES] using hdk with rfl | rfl | rfl | rfl <;>
      exact ⟨by decide, by decide⟩
  have hfield_dep : ∀ dk, dk ∈ DEPENDENCY_TYPES →
      depsFor pj dk = fieldResult dk entries parseDeps [] := by
    intro dk hdk
    rcases show dk = "dependencies" ∨ dk = "devDependencies" ∨
        dk = "peerDependencies" ∨ dk = "optionalDependencies" by
      simpa [DEPENDENCY_TYPES] using hdk with rfl | rfl | rfl | rfl
    · rw [show depsFor pj "dependencies" = pj.dependencies from rfl, hdd]
    · rw [show depsFor pj "devDependencies" = pj.dev_dependencies from rfl, hdv]
    · rw [show depsFor pj "peerDependencies" = pj.peer_dependencies from rfl, hdp]
    · rw [show depsFor pj "optionalDependencies" = pj.optional_dependencies from rfl, hdo]
  have hdep_shape : ∀ dk, dk ∈ DEPENDENCY_TYPES → ∀ v, (dk, v) ∈ entries →
      ∃ es, v = .obj es := by
    intro dk hdk v hv
    have hne := hdkne dk hdk
    have hwtv := hwt (dk, v) hv
    rw [wellTypedEntry] at hwtv
    rw [if_neg hne.1, if_neg hne.2, if_pos hdk] at hwtv
    cases v with
    | obj es => exact ⟨es, rfl⟩
    | null => exact absurd hwtv (by simp [parseDeps])
    | bool b => exact absurd hwtv (by simp [parseDeps])
    | num n => exact absurd hwtv (by simp [parseDeps])
    | str s => exact absurd hwtv (by simp [parseDeps])
    | arr l => exact absurd hwtv (by simp [parseDeps])
  have hemit_dep : ∀ dk, dk ∈ DEPENDENCY_TYPES → ∀ es, (dk, .obj es) ∈ entries →
      ∃ d, depsFor pj dk = d ∧ keysSorted d ∧
        (∀ n s, ((n, Json.str s) ∈ es ↔ (n, s) ∈ d)) ∧
        serializeEntry pj dk .storedElsewhere =
          (if es.isEmpty then none else some (dk, renderDeps d)) := by
    intro dk hdk es hv
    have hne := hdkne dk hdk
    have hlk := mem_lookup_nodup hnd hv
    have hwtv := hwt (dk, .obj es) hv
    rw [wellTypedEntry] at hwtv
    rw [if_neg hne.1, if_neg hne.2, if_pos hdk] at hwtv
    have hesnd : (es.map Prod.fst).Nodup := by
      have := hinner (dk, .obj es) hv (Or.inr hdk)
      rw [objKeysNodup] at this
      exact decide_eq_true_eq.mp this
    cases hpd : parseDeps (.obj es) with
    | none => rw [hpd] at hwtv; exact absurd hwtv (by simp)
    | some d0 =>
      have hshape := depsOfEntries_shape es [] d0 (by rw [parseDeps] at hpd; exact hpd)
      rcases depsOfEntries_spec es [] hesnd hshape List.Pairwise.nil with ⟨d, hd1, hd2, hd3, hd4⟩
      have hpd2 : parseDeps (.obj es) = some d := by rw [parseDeps]; exact hd1
      have hfld : depsFor pj dk = d := by
        rw [hfield_dep dk hdk, fieldResult, hlk]
        show (parseDeps (Json.obj es)).getD [] = d
        rw [hpd2]
        rfl
      have hiff : ∀ n s, ((n, Json.str s) ∈ es ↔ (n, s) ∈ d) := by
        intro n s
        constructor
        · intro hmem2
          exact (mem_iff_lookup hd2 n s).mpr (hd3 n s (mem_lookup_nodup hesnd hmem2))
        · intro hmem2
          have hlkd := (mem_iff_lookup hd2 n s).mp hmem2
          cases hlkes : mapLookup n es with
          | none =>
            rw [hd4 n hlkes] at hlkd
            exact absurd hlkd (by simp [mapLookup])
          | some v2 =>
            have hv2mem := mapLookup_mem hlkes
            have hv2shape := (hshape (n, v2) hv2mem).1
            cases v2 with
            | str s2 =>
              rw [hd3 n s2 hlkes] at hlkd
              rw [show s = s2 from (Option.some_inj.mp hlkd).symm]
              exact hv2mem
            | null => exact absurd hv2shape (by simp [isStrVal])
            | bool b => exact absurd hv2shape (by simp [isStrVal])
            | num m => exact absurd hv2shape (by simp [isStrVal])
            | arr l => exact absurd hv2shape (by simp [isStrVal])
            | obj l => exact absurd hv2shape (by simp [isStrVal])
      refine ⟨d, hfld, hd2, hiff, ?_⟩
      rw [serializeEntry, if_neg hne.1, if_neg hne.2, if_pos hdk, hfld]
      cases es with
      | nil =>
        have hdnil : d = [] := by
          have : (some [] : Option Dependencies) = some d := hd1
          exact (Option.some_inj.mp this).symm
        rw [hdnil]
        rfl
      | cons e t =>
        obtain ⟨n0, v0⟩ := e
        have hv0shape := (hshape (n0, v0) (List.mem_cons_self _ _)).1
        cases v0 with
        | str s0 =>
          have hlk0 : mapLookup n0 ((n0, Json.str s0) :: t) = some (Json.str s0) := by
            rw [mapLookup, if_pos rfl]
          have hd0 : mapLookup n0 d = some s0 := hd3 n0 s0 hlk0
          cases d with
          | nil => exact absurd hd0 (by simp [mapLookup])
          | cons d0 dt => rfl
        | null => exact absurd hv0shape (by simp [isStrVal])
        | bool b => exact absurd hv0shape (by simp [isStrVal])
        | num m => exact absurd hv0shape (by simp [isStrVal])
        | arr l => exact absurd hv0shape (by simp [isStrVal])
        | obj l => exact absurd hv0shape (by simp [isStrVal])
  refine ⟨pj, hparse, ?_, ?_, ?_, ?_, ?_, ?_⟩
  · rw [hser]
    apply filterMap_keys_filter
    intro kv hkv
    obtain ⟨k, v⟩ := kv
    by_cases hk1 : k = "name"
    · subst hk1
      rw [show entryMarker ("name", v) = ("name", PkgJsonValue.storedElsewhere) by
        simp [entryMarker]]
      rw [hemit_name v hkv]
      exact ⟨rfl, rfl⟩
    · by_cases hk2 : k = "scripts"
      · subst hk2
        rcases hscripts_shape v hkv with ⟨es, rfl⟩
        rw [show entryMarker ("scripts", Json.obj es) =
            ("scripts", PkgJsonValue.storedElsewhere) by simp [entryMarker]]
        rw [(hemit_scripts es hkv).2]
        cases es with
        | nil => exact (rfl : emptyRecognized ("scripts", Json.obj []) = true)
        | cons e t => exact ⟨rfl, rfl⟩
      · by_cases hk3 : k ∈ DEPENDENCY_TYPES
        · rcases hdep_shape k hk3 v hkv with ⟨es, rfl⟩
          rw [show entryMarker (k, Json.obj es) = (k, PkgJsonValue.storedElsewhere) by
            simp [entryMarker, hk3]]
          rcases hemit_dep k hk3 es hkv with ⟨d, hfld, hd2, hiff, hserent⟩
          rw [hserent]
          cases es with
          | nil => simp [emptyRecognized, isEmptyObj, hk3]
          | cons e t =>
            refine ⟨rfl, ?_⟩
            simp [emptyRecognized, isEmptyObj]
        · rw [show entryMarker (k, v) = (k, PkgJsonValue.value v) by
            simp [entryMarker, hk1, hk2, hk3]]
          refine ⟨rfl, ?_⟩
          simp [emptyRecognized, hk2, hk3]
  · intro k v hkv hk1 hk2 hk3
    rw [hser]
    apply List.mem_filterMap.mpr
    refine ⟨(k, v), hkv, ?_⟩
    rw [show entryMarker (k, v) = (k, PkgJsonValue.value v) by
      simp [entryMarker, hk1, hk2, hk3]]
    rfl
  · intro v hv
    rw [hser]
    apply List.mem_filterMap.mpr
    refine ⟨("name", v), hv, ?_⟩
    rw [show entryMarker ("name", v) = ("name", PkgJsonValue.storedElsewhere) by
      simp [entryMarker]]
    exact hemit_name v hv
  · intro v hv hne
    rcases hscripts_shape v hv with ⟨es, rfl⟩
    rw [hser]
    apply List.mem_filterMap.mpr
    refine ⟨("scripts", Json.obj es), hv, ?_⟩
    rw [show entryMarker ("scripts", Json.obj es) =
        ("scripts", PkgJsonValue.storedElsewhere) by simp [entryMarker]]
    rw [(hemit_scripts es hv).2]
    cases es with
    | nil => exact absurd rfl hne
    | cons e t => rfl
  · intro dk es hdk hv hne
    rcases hemit_dep dk hdk es hv with ⟨d, hfld, hd2, hiff, hserent⟩
    refine ⟨d, ?_, hd2, hiff⟩
    rw [hser]
    apply List.mem_filterMap.mpr
    refine ⟨(dk, Json.obj es), hv, ?_⟩
    rw [show entryMarker (dk, Json.obj es) = (dk, PkgJsonValue.storedElsewhere) by
      simp [entryMarker, hdk]]
    rw [hserent]
    cases es with
    | nil => exact absurd rfl hne
    | cons e t => rfl
  · intro dk hdk hnmem hser2
    rw [hser] at hser2
    rcases List.mem_map.mp hser2 with ⟨out, hout, houtk⟩
    rcases List.mem_filterMap.mp hout with ⟨kv, hkv, hfkv⟩
    have hk := serializeEntry_key hfkv
    rw [entryMarker_fst] at hk
    apply hnmem
    rw [← houtk, hk]
    exact List.mem_map_of_mem Prod.fst hkv

/-- The top-level keys that re-serializing a parsed document emits. -/
def serializeKeys (pj : PackageJson) : List String :=
  (serializePackageJson pj).map Prod.fst

theorem c1_counterexample :
    (Option.map serializeKeys
      (parsePackageJson (.obj [("name", .str "a"), ("scripts", .obj [])])) =
      some ["name"]) ∧
    ¬ (["name"] =
      ([("name", Json.str "a"), ("scripts", Json.obj [])].map Prod.fst)) ∧
    wfDoc [("name", .str "a"), ("scripts", .obj [])] = true := by
  refine ⟨rfl, by simp, by decide⟩

theorem c1_witness :
    wfDoc [("name", Json.str "a"), ("keywords", Json.arr [Json.str "x"]),
      ("dependencies", Json.obj [("zz", Json.str "one"), ("aa", Json.str "two")])] = true ∧
    (∃ pj, parsePackageJson (.obj [("name", Json.str "a"),
        ("keywords", Json.arr [Json.str "x"]),
        ("dependencies", Json.obj [("zz", Json.str "one"), ("aa", Json.str "two")])]) =
        some pj ∧
      ((serializePackageJson pj).map Prod.fst =
        ([("name", Json.str "a"), ("keywords", Json.arr [Json.str "x"]),
          ("dependencies", Json.obj [("zz", Json.str "one"), ("aa", Json.str "two")])].filter
            (fun kv => !(emptyRecognized kv))).map Prod.fst) ∧
      (∀ k v, (k, v) ∈ [("name", Json.str "a"), ("keywords", Json.arr [Json.str "x"]),
          ("dependencies", Json.obj [("zz", Json.str "one"), ("aa", Json.str "two")])] →
        ¬ k = "name" → ¬ k = "scripts" → ¬ k ∈ DEPENDENCY_TYPES →
        (k, v) ∈ serializePackageJson pj) ∧
      (∀ v, ("name", v) ∈ [("name", Json.str "a"), ("keywords", Json.arr [Json.str "x"]),
          ("dependencies", Json.obj [("zz", Json.str "one"), ("aa", Json.str "two")])] →
        ("name", v) ∈ serializePackageJson pj) ∧
      (∀ v, ("scripts", v) ∈ [("name", Json.str "a"), ("keywords", Json.arr [Json.str "x"]),
          ("dependencies", Json.obj [("zz", Json.str "one"), ("aa", Json.str "two")])] →
        ¬ v = .obj [] → ("scripts", v) ∈ serializePackageJson pj) ∧
      (∀ dk es, dk ∈ DEPENDENCY_TYPES →
        (dk, .obj es) ∈ [("name", Json.str "a"), ("keywords", Json.arr [Json.str "x"]),
          ("dependencies", Json.obj [("zz", Json.str "one"), ("aa", Json.str "two")])] →
        ¬ es = [] →
        ∃ d, (dk, renderDeps d) ∈ serializePackageJson pj ∧ keysSorted d ∧
          (∀ n s, ((n, Json.str s) ∈ es ↔ (n, s) ∈ d))) ∧
      (∀ dk, dk ∈ DEPENDENCY_TYPES →
        ¬ dk ∈ ([("name", Json.str "a"), ("keywords", Json.arr [Json.str "x"]),
          ("dependencies", Json.obj [("zz", Json.str "one"), ("aa", Json.str "two")])].map
            Prod.fst) →
        ¬ dk ∈ (serializePackageJson pj).map Prod.fst)) :=
  ⟨by decide, c1_roundtrip_order_amended _ (by decide)⟩

theorem countName_cons_name (v : Json) (rest : List (String × Json)) :
    countName (("name", v) :: rest) = countName rest + 1 := by
  unfold countName
  rw [List.filter_cons_of_pos (by simp)]
  rfl

theorem countName_cons_ne {k : String} (v : Json) (rest : List (String × Json))
    (h : ¬ k = "name") : countName ((k, v) :: rest) = countName rest := by
  unfold countName
  rw [List.filter_cons_of_neg (by simpa using h)]

theorem visit_map_isSome :
    ∀ (entries : List (String × Json)) (acc : ParseAcc),
    (visit_map entries acc).isSome =
      (entries.all wellTypedEntry &&
        decide (countName entries + (if acc.name.isSome then 1 else 0) ≤ 1)) := by
  intro entries
  induction entries with
  | nil =>
    intro acc
    rw [show visit_map [] acc = some acc from rfl]
    simp only [List.all_nil, Bool.true_and, Option.isSome_some, countName,
      List.filter_nil, List.length_nil, Nat.zero_add]
    rw [show decide ((if acc.name.isSome = true then 1 else 0) ≤ 1) = true by
      rw [decide_eq_true_eq]; split <;> omega]
  | cons hd rest ih =>
    intro acc
    obtain ⟨key, v⟩ := hd
    by_cases hk1 : key = "name"
    · subst hk1
      cases hn : acc.name with
      | some pn0 =>
        rw [visit_map, if_pos rfl, hn]
        rw [countName_cons_name]
        have hone : (if (some pn0).isSome then 1 else 0) = 1 := rfl
        rw [hone, show decide (countName rest + 1 + 1 ≤ 1) = false by
          rw [decide_eq_false_iff_not]; omega]
        simp
      | none =>
        rw [visit_map, if_pos rfl, hn]
        cases hnf : parseNameField v with
        | none =>
          have hwtf : wellTypedEntry ("name", v) = false := by
            rw [wellTypedEntry]
            simp only [if_pos rfl]
            rw [hnf]
            rfl
          rw [show (Option.isSome (none : Option ParseAcc)) = false from rfl,
            List.all_cons, hwtf]
          simp
        | some newName =>
          rw [ih]
          have hwtt : wellTypedEntry ("name", v) = true := by
            rw [wellTypedEntry]
            simp only [if_pos rfl]
            rw [hnf]
            rfl
          rw [List.all_cons, hwtt, countName_cons_name]
          have hsome : ∃ pn, newName = some pn := parseNameField_shape hnf
          rcases hsome with ⟨pn, rfl⟩
          simp
    · have hcount : countName (((key, v)) :: rest) = countName rest :=
        countName_cons_ne v rest hk1
      by_cases hk2 : key = "scripts"
      · subst hk2
        rw [visit_map, if_neg (by decide : ¬ ("scripts" : String) = "name"), if_pos rfl]
        cases hps : parseScripts v with
        | none =>
          have hwtf : wellTypedEntry ("scripts", v) = false := by
            rw [wellTypedEntry]
            rw [if_neg (by decide : ¬ ("scripts" : String) = "name"), if_pos rfl, hps]
            rfl
          rw [show (Option.isSome (none : Option ParseAcc)) = false from rfl,
            List.all_cons, hwtf]
          simp
        | some sc =>
          rw [ih]
          have hwtt : wellTypedEntry ("scripts", v) = true := by
            rw [wellTypedEntry]
            rw [if_neg (by decide : ¬ ("scripts" : String) = "name"), if_pos rfl, hps]
            rfl
          rw [List.all_cons, hwtt, hcount]
          rfl
      by_cases hk3 : key = "dependencies"
      · subst hk3
        rw [visit_map, if_neg (by decide : ¬ ("dependencies" : String) = "name"),
          if_neg (by decide : ¬ ("dependencies" : String) = "scripts"), if_pos rfl]
        cases hpd : parseDeps v with
        | none =>
          have hwtf : wellTypedEntry ("dependencies", v) = false := by
            rw [wellTypedEntry]
            rw [if_neg (by decide : ¬ ("dependencies" : String) = "name"),
              if_neg (by decide : ¬ ("dependencies" : String) = "scripts"),
              if_pos (by decide : ("dependencies" : String) ∈ DEPENDENCY_TYPES), hpd]
            rfl
          rw [show (Option.isSome (none : Option ParseAcc)) = false from rfl,
            List.all_cons, hwtf]
          simp
        | some d =>
          rw [ih]
          have hwtt : wellTypedEntry ("dependencies", v) = true := by
            rw [wellTypedEntry]
            rw [if_neg (by decide : ¬ ("dependencies" : String) = "name"),
              if_neg (by decide : ¬ ("dependencies" : String) = "scripts"),
              if_pos (by decide : ("dependencies" : String) ∈ DEPENDENCY_TYPES), hpd]
            rfl
          rw [List.all_cons, hwtt, hcount]
          rfl
      by_cases hk4 : key = "devDependencies"
      · subst hk4
        rw [visit_map, if_neg (by decide : ¬ ("devDependencies" : String) = "name"),
          if_neg (by decide : ¬ ("devDependencies" : String) = "scripts"),
          if_neg (by decide : ¬ ("devDependencies" : String) = "dependencies"), if_pos rfl]
        cases hpd : parseDeps v with
        | none =>
          have hwtf : wellTypedEntry ("devDependencies", v) = false := by
            rw [wellTypedEntry]
            rw [if_neg (by decide : ¬ ("devDependencies" : String) = "name"),
              if_neg (by decide : ¬ ("devDependencies" : String) = "scripts"),
              if_pos (by decide : ("devDependencies" : String) ∈ DEPENDENCY_TYPES), hpd]
            rfl
          rw [show (Option.isSome (none : Option ParseAcc)) = false from rfl,
            List.all_cons, hwtf]
          simp
        | some d =>
          rw [ih]
          have hwtt : wellTypedEntry ("devDependencies", v) = true := by
            rw [wellTypedEntry]
            rw [if_neg (by decide : ¬ ("devDependencies" : String) = "name"),
              if_neg (by decide : ¬ ("devDependencies" : String) = "scripts"),
              if_pos (by decide : ("devDependencies" : String) ∈ DEPENDENCY_TYPES), hpd]
            rfl
          rw [List.all_cons, hwtt, hcount]
          rfl
      by_cases hk5 : key = "peerDependencies"
      · subst hk5
        rw [visit_map, if_neg (by decide : ¬ ("peerDependencies" : String) = "name"),
          if_neg (by decide : ¬ ("peerDependencies" : String) = "scripts"),
          if_neg (by decide : ¬ ("peerDependencies" : String) = "dependencies"),
          if_neg (by decide : ¬ ("peerDependencies" : String) = "devDependencies"), if_pos rfl]
        cases hpd : parseDeps v with
        | none =>
          have hwtf : wellTypedEntry ("peerDependencies", v) = false := by
            rw [wellTypedEntry]
            rw [if_neg (by decide : ¬ ("peerDependencies" : String) = "name"),
              if_neg (by decide : ¬ ("peerDependencies" : String) = "scripts"),
              if_pos (by decide : ("peerDependencies" : String) ∈ DEPENDENCY_TYPES), hpd]
            rfl
          rw [show (Option.isSome (none : Option ParseAcc)) = false from rfl,
            List.all_cons, hwtf]
          simp
        | some d =>
          rw [ih]
          have hwtt : wellTypedEntry ("peerDependencies", v) = true := by
            rw [wellTypedEntry]
            rw [if_neg (by decide : ¬ ("peerDependencies" : String) = "name"),
              if_neg (by decide : ¬ ("peerDependencies" : String) = "scripts"),
              if_pos (by decide : ("peerDependencies" : String) ∈ DEPENDENCY_TYPES), hpd]
            rfl
          rw [List.all_cons, hwtt, hcount]
          rfl
      by_cases hk6 : key = "optionalDependencies"
      · subst hk6
        rw [visit_map, if_neg (by decide : ¬ ("optionalDependencies" : String) = "name"),
          if_neg (by decide : ¬ ("optionalDependencies" : String) = "scripts"),
          if_neg (by decide : ¬ ("optionalDependencies" : String) = "dependencies"),
          if_neg (by decide : ¬ ("optionalDependencies" : String) = "devDependencies"),
          if_neg (by decide : ¬ ("optionalDependencies" : String) = "peerDependencies"), if_pos rfl]
        cases hpd : parseDeps v with
        | none =>
          have hwtf : wellTypedEntry ("optionalDependencies", v) = false := by
            rw [wellTypedEntry]
            rw [if_neg (by decide : ¬ ("optionalDependencies" : String) = "name"),
              if_neg (by decide : ¬ ("optionalDependencies" : String) = "scripts"),
              if_pos (by decide : ("optionalDependencies" : String) ∈ DEPENDENCY_TYPES), hpd]
            rfl
          rw [show (Option.isSome (none : Option ParseAcc)) = false from rfl,
            List.all_cons, hwtf]
          simp
        | some d =>
          rw [ih]
          have hwtt : wellTypedEntry ("optionalDependencies", v) = true := by
            rw [wellTypedEntry]
            rw [if_neg (by decide : ¬ ("optionalDependencies" : String) = "name"),
              if_neg (by decide : ¬ ("optionalDependencies" : String) = "scripts"),
              if_pos (by decide : ("optionalDependencies" : String) ∈ DEPENDENCY_TYPES), hpd]
            rfl
          rw [List.all_cons, hwtt, hcount]
          rfl
      have hmemdep : ¬ key ∈ DEPENDENCY_TYPES := by
        simp only [DEPENDENCY_TYPES, List.mem_cons, List.not_mem_nil, or_false]
        push_neg
        exact ⟨hk3, hk4, hk5, hk6⟩
      rw [visit_map, if_neg hk1, if_neg hk2, if_neg hk3, if_neg hk4, if_neg hk5, if_neg hk6]
      rw [ih]
      have hwtt : wellTypedEntry (key, v) = true := by
        rw [wellTypedEntry]
        rw [if_neg hk1, if_neg hk2, if_neg hmemdep]
      rw [List.all_cons, hwtt, hcount]
      rfl

theorem visit_map_name :
    ∀ (entries : List (String × Json)) (acc acc' : ParseAcc),
    visit_map entries acc = some acc' →
    acc'.name.isSome = (acc.name.isSome || decide (1 ≤ countName entries)) := by
  intro entries
  induction entries with
  | nil =>
    intro acc acc' h
    rw [show visit_map [] acc = some acc from rfl] at h
    rw [← Option.some_inj.mp h]
    simp [countName]
  | cons hd rest ih =>
    intro acc acc' h
    obtain ⟨key, v⟩ := hd
    by_cases hk1 : key = "name"
    · subst hk1
      rw [visit_map, if_pos rfl] at h
      cases hn : acc.name with
      | some pn0 =>
        rw [hn] at h
        exact absurd h (by simp)
      | none =>
        rw [hn] at h
        cases hnf : parseNameField v with
        | none => rw [hnf] at h; exact absurd h (by simp)
        | some newName =>
          rw [hnf] at h
          rcases parseNameField_shape hnf with ⟨pn, rfl⟩
          rw [ih _ _ h]
          rw [countName_cons_name]
          simp
    · have hcount : countName (((key, v)) :: rest) = countName rest :=
        countName_cons_ne v rest hk1
      by_cases hk2 : key = "scripts"
      · subst hk2
        rw [visit_map, if_neg (by decide : ¬ ("scripts" : String) = "name"), if_pos rfl] at h
        cases hps : parseScripts v with
        | none => rw [hps] at h; exact absurd h (by simp)
        | some sc =>
          rw [hps] at h
          rw [ih _ _ h, hcount]
      by_cases hk3 : key = "dependencies"
      · subst hk3
        rw [visit_map, if_neg (by decide : ¬ ("dependencies" : String) = "name"),
          if_neg (by decide : ¬ ("dependencies" : String) = "scripts"), if_pos rfl] at h
        cases hpd : parseDeps v with
        | none => rw [hpd] at h; exact absurd h (by simp)
        | some d =>
          rw [hpd] at h
          rw [ih _ _ h, hcount]
      by_cases hk4 : key = "devDependencies"
      · subst hk4
        rw [visit_map, if_neg (by decide : ¬ ("devDependencies" : String) = "name"),
          if_neg (by decide : ¬ ("devDependencies" : String) = "scripts"),
          if_neg (by decide : ¬ ("devDependencies" : String) = "dependencies"), if_pos rfl] at h
        cases hpd : parseDeps v with
        | none => rw [hpd] at h; exact absurd h (by simp)
        | some d =>
          rw [hpd] at h
          rw [ih _ _ h, hcount]
      by_cases hk5 : key = "peerDependencies"
      · subst hk5
        rw [visit_map, if_neg (by decide : ¬ ("peerDependencies" : String) = "name"),
          if_neg (by decide : ¬ ("peerDependencies" : String) = "scripts"),
          if_neg (by decide : ¬ ("peerDependencies" : String) = "dependencies"),
          if_neg (by decide : ¬ ("peerDependencies" : String) = "devDependencies"), if_pos rfl] at h
        cases hpd : parseDeps v with
        | none => rw [hpd] at h; exact absurd h (by simp)
        | some d =>
          rw [hpd] at h
          rw [ih _ _ h, hcount]
      by_cases hk6 : key = "optionalDependencies"
      · subst hk6
        rw [visit_map, if_neg (by decide : ¬ ("optionalDependencies" : String) = "name"),
          if_neg (by decide : ¬ ("optionalDependencies" : String) = "scripts"),
          if_neg (by decide : ¬ ("optionalDependencies" : String) = "dependencies"),
          if_neg (by decide : ¬ ("optionalDependencies" : String) = "devDependencies"),
          if_neg (by decide : ¬ ("optionalDependencies" : String) = "peerDependencies"), if_pos rfl] at h
        cases hpd : parseDeps v with
        | none => rw [hpd] at h; exact absurd h (by simp)
        | some d =>
          rw [hpd] at h
          rw [ih _ _ h, hcount]
      rw [visit_map, if_neg hk1, if_neg hk2, if_neg hk3, if_neg hk4, if_neg hk5,
        if_neg hk6] at h
      rw [ih _ _ h, hcount]

/-- C6 (amended): parsing a manifest document fails exactly when the top
level is not a JSON object, the `name` key is missing or duplicated, or a
recognized entry is ill-typed — `name` not a string passing `PackageName`
validation, `scripts` not an object of strings, or a dependency section
not an object of version strings keyed by valid package names.  (That the
failure condition is wider than "missing/duplicate name or invalid
PackageName" is what corrects the claim.) -/
theorem c6_parse_failure_amended :
    (∀ entries : List (String × Json),
      (parsePackageJson (.obj entries)).isSome =
        (entries.all wellTypedEntry && decide (countName entries = 1))) ∧
    parsePackageJson .null = none ∧
    (∀ b, parsePackageJson (.bool b) = none) ∧
    (∀ n, parsePackageJson (.num n) = none) ∧
    (∀ s, parsePackageJson (.str s) = none) ∧
    (∀ l, parsePackageJson (.arr l) = none) := by
  refine ⟨?_, rfl, fun b => rfl, fun n => rfl, fun s => rfl, fun l => rfl⟩
  intro entries
  have hiso := visit_map_isSome entries initAcc
  cases hv : visit_map entries initAcc with
  | none =>
    rw [hv] at hiso
    rw [parsePackageJson, hv]
    cases hall : entries.all wellTypedEntry with
    | false => simp [hall]
    | true =>
      rw [hall] at hiso
      simp only [Option.isSome_none, Bool.true_and] at hiso ⊢
      have hcount : ¬ ((countName entries +
          (if initAcc.name.isSome = true then 1 else 0)) ≤ 1) := by
        rw [← decide_eq_false_iff_not, ← hiso]
      rw [show (if (initAcc.name).isSome = true then 1 else 0) = 0 from rfl] at hcount
      rw [show decide (countName entries = 1) = false by
        rw [decide_eq_false_iff_not]; omega]
  | some acc' =>
    rw [hv] at hiso
    have hnm := visit_map_name entries initAcc acc' hv
    rw [show (initAcc.name).isSome = false from rfl, Bool.false_or] at hnm
    have h2 : (entries.all wellTypedEntry &&
        decide ((countName entries + (if initAcc.name.isSome = true then 1 else 0)) ≤ 1)) =
        true := by
      rw [← hiso]
      rfl
    rw [Bool.and_eq_true] at h2
    obtain ⟨hall, hled⟩ := h2
    rw [show (if (initAcc.name).isSome = true then 1 else 0) = 0 from rfl] at hled
    have hle : countName entries + 0 ≤ 1 := decide_eq_true_eq.mp hled
    rw [parsePackageJson, hv]
    dsimp only
    cases hn : acc'.name with
    | some pn =>
      have h1le : 1 ≤ countName entries := by
        rw [hn, show ((some pn : Option PackageName)).isSome = true from rfl] at hnm
        exact decide_eq_true_eq.mp hnm.symm
      rw [hall, show decide (countName entries = 1) = true by
        rw [decide_eq_true_eq]; omega]
      rfl
    | none =>
      have h0 : ¬ 1 ≤ countName entries := by
        intro hc
        rw [hn, show ((none : Option PackageName)).isSome = false from rfl] at hnm
        rw [decide_eq_true hc] at hnm
        exact absurd hnm (by simp)
      rw [show decide (countName entries = 1) = false by
        rw [decide_eq_false_iff_not]; omega]
      simp

theorem c6_counterexample :
    parsePackageJson (.obj [("name", .str "a"), ("scripts", .num 5)]) = none ∧
    countName [("name", Json.str "a"), ("scripts", Json.num 5)] = 1 ∧
    (PackageName.new "a").isOk = true :=
  ⟨rfl, rfl, by decide⟩

theorem c6_witness :
    (parsePackageJson (.obj [("name", Json.str "a")])).isSome =
      ([("name", Json.str "a")].all wellTypedEntry &&
        decide (countName [("name", Json.str "a")] = 1)) :=
  c6_parse_failure_amended.1 [("name", Json.str "a")]

theorem find_dependents_eq_collectFold (p : Project) (name : String) :
    p.find_dependents name = collectFold (p.depOccurrences name) [] := rfl

theorem collectFold_sorted (occ : List (String × PackageName))
    {m : List (String × List PackageName)} (hm : keysSorted m) :
    keysSorted (collectFold occ m) := by
  induction occ generalizing m with
  | nil => exact hm
  | cons sv t ih => exact ih (insertWith_sorted _ sv.1 hm)

theorem collectFold_lookup (occ : List (String × PackageName)) (q : String)
    {m : List (String × List PackageName)} (hm : keysSorted m) :
    mapLookup q (collectFold occ m) =
      match mapLookup q m with
      | some l => some (l ++ (occ.filter (fun x => decide (x.1 = q))).map Prod.snd)
      | none =>
        if ((occ.filter (fun x => decide (x.1 = q))).map Prod.snd).isEmpty then none
        else some ((occ.filter (fun x => decide (x.1 = q))).map Prod.snd) := by
  induction occ generalizing m with
  | nil =>
    show mapLookup q m = _
    cases h : mapLookup q m <;> simp
  | cons sv t ih =>
    show mapLookup q (collectFold t (mapInsertWith _ sv.1 m)) = _
    rw [ih (insertWith_sorted _ sv.1 hm)]
    rw [lookup_insertWith _ sv.1 q hm]
    by_cases hq : q = sv.1
    · rw [if_pos hq]
      have hf : (sv :: t).filter (fun x => decide (x.1 = q)) =
          sv :: t.filter (fun x => decide (x.1 = q)) := by
        simp [List.filter_cons, hq.symm]
      rw [hf]
      subst hq
      cases mapLookup sv.1 m with
      | some l => simp [List.append_assoc]
      | none => simp
    · rw [if_neg hq]
      have hf : (sv :: t).filter (fun x => decide (x.1 = q)) =
          t.filter (fun x => decide (x.1 = q)) := by
        simp [List.filter_cons]
        intro hx
        exact absurd hx.symm hq
      rw [hf]

/-- C3 (amended): `find_dependents` scans only the three normal dependency
maps of every package (`projPeer`, whose root lists lodash only under
`peerDependencies`, yields nothing); the returned mapping is key-sorted by
specifier, and each present specifier maps to the dependent package names
in package-iteration (hash-map) order — not sorted by name; the spec's
two-package scenario returns `{"^3.0.0": ["b"], "^4.0.0": ["a"]}`. -/
theorem c3_find_dependents_amended (p : Project) (name : String) :
    keysSorted (p.find_dependents name) ∧
    (∀ q, mapLookup q (p.find_dependents name) =
      (if (((p.depOccurrences name).filter (fun x => decide (x.1 = q))).map Prod.snd).isEmpty
       then none
       else some (((p.depOccurrences name).filter (fun x => decide (x.1 = q))).map Prod.snd))) ∧
    projEx.find_dependents "lodash" =
      [("^3.0.0", [⟨"b", none⟩]), ("^4.0.0", [⟨"a", none⟩])] ∧
    projPeer.find_dependents "lodash" = [] := by
  refine ⟨?_, ?_, by decide, by decide⟩
  · exact collectFold_sorted _ List.Pairwise.nil
  · intro q
    rw [find_dependents_eq_collectFold]
    rw [collectFold_lookup _ q List.Pairwise.nil]
    rfl

/-- C3 counterexample: when members b and a share the specifier
`"^1.0.0"` and iterate in the order b, a, the dependent-name list is
`["b", "a"]`, not the sorted `["a", "b"]` (indeed `"a" < "b"`). -/
theorem c3_counterexample :
    projUnsorted.find_dependents "lodash" =
      [("^1.0.0", [⟨"b", none⟩, ⟨"a", none⟩])] ∧
    lexLt "a".data "b".data = true := by decide

theorem findFuel_irrel (fs : FileSys) :
    ∀ f₁ f₂ (path : List String), path.length < f₁ → path.length < f₂ →
    findFuel fs f₁ path = findFuel fs f₂ path := by
  intro f₁
  induction f₁ with
  | zero => exact fun f₂ path h1 _ => absurd h1 (Nat.not_lt_zero _)
  | succ f₁ ih =>
    intro f₂ path h1 h2
    cases f₂ with
    | zero => exact absurd h2 (Nat.not_lt_zero _)
    | succ f₂ =>
      simp only [findFuel]
      cases hl : firstLock (fs.listing path) with
      | some mgr => rfl
      | none =>
        cases path with
        | nil => rfl
        | cons h t =>
          have hlen := List.length_dropLast (h :: t)
          simp only [List.length_cons] at h1 h2 hlen
          exact ih f₂ ((h :: t).dropLast) (by omega) (by omega)

theorem find_step (fs : FileSys) (path : List String) :
    Project.find fs path =
      match firstLock (fs.listing path) with
      | some mgr =>
        match fs.readPkgJson path with
        | none => .error .IoError
        | some doc =>
          match wsGlobs fs path mgr with
          | .error e => .error e
          | .ok globs? =>
            match parsePackageJson doc with
            | none => .error .SerdeJson
            | some rootPj =>
              .ok ⟨⟨path ++ ["package.json"], rootPj⟩,
                globs?.map (fun globs => buildPkgMap (fs.expandMembers path globs)), mgr⟩
      | none =>
        match path with
        | [] => .error .CouldNotFindLockfile
        | _ :: _ => Project.find fs path.dropLast := by
  show findFuel fs (path.length + 1) path = _
  simp only [findFuel]
  cases hl : firstLock (fs.listing path) with
  | some mgr => rfl
  | none =>
    cases path with
    | nil => rfl
    | cons h t =>
      show findFuel fs (h :: t).length ((h :: t).dropLast) =
        findFuel fs ((h :: t).dropLast.length + 1) ((h :: t).dropLast)
      have hlen := List.length_dropLast (h :: t)
      simp only [List.length_cons] at hlen
      exact findFuel_irrel fs _ _ _ (by simp [hlen]) (by omega)

theorem findFuel_noLock (fs : FileSys) :
    ∀ (fuel : Nat) (path : List String), path.length < fuel →
    (∀ q, q <+: path → firstLock (fs.listing q) = none) →
    findFuel fs fuel path = .error .CouldNotFindLockfile := by
  intro fuel
  induction fuel with
  | zero => exact fun path h1 _ => absurd h1 (Nat.not_lt_zero _)
  | succ fuel ih =>
    intro path h1 hall
    simp only [findFuel]
    rw [hall path (List.prefix_refl path)]
    cases path with
    | nil => rfl
    | cons h t =>
      have hlen := List.length_dropLast (h :: t)
      simp only [List.length_cons] at h1 hlen
      exact ih ((h :: t).dropLast) (by omega)
        (fun q hq => hall q (hq.trans (List.dropLast_prefix (h :: t))))

/-- C4 (amended): discovery walks upward one directory at a time and fails
with `CouldNotFindLockfile` when no directory on the way to the filesystem
root contains a lock artifact; a lock-artifact hit fixes the project root
and the manager named by the artifact (`yarn.lock` → Yarn,
`pnpm-lock.yaml` → PNPM, `package-lock.json` → NPM) and stops the search —
but within one directory the winner is the FIRST lock artifact in
directory-listing order, not a fixed yarn → pnpm → npm priority. -/
theorem c4_lock_detection_amended (fs : FileSys) (path : List String) :
    (firstLock (fs.listing path) = none → path ≠ [] →
      Project.find fs path = Project.find fs path.dropLast) ∧
    (∀ mgr proj, firstLock (fs.listing path) = some mgr →
      Project.find fs path = .ok proj →
      proj.manager = mgr ∧ proj.root.pkg_json_path = path ++ ["package.json"]) ∧
    ((∀ q, q <+: path → firstLock (fs.listing q) = none) →
      Project.find fs path = .error .CouldNotFindLockfile) ∧
    lockEntry "yarn.lock" = some .Yarn ∧
    lockEntry "pnpm-lock.yaml" = some .PNPM ∧
    lockEntry "package-lock.json" = some .NPM := by
  refine ⟨?_, ?_, ?_, by decide, by decide, by decide⟩
  · intro hnone hne
    rw [find_step fs path, hnone]
    cases path with
    | nil => exact absurd rfl hne
    | cons h t => rfl
  · intro mgr proj hsome hfind
    rw [find_step fs path, hsome] at hfind
    dsimp only at hfind
    cases hr : fs.readPkgJson path with
    | none => rw [hr] at hfind; exact absurd hfind (by simp)
    | some doc =>
      rw [hr] at hfind
      dsimp only at hfind
      cases hw : wsGlobs fs path mgr with
      | error e => rw [hw] at hfind; exact absurd hfind (by simp)
      | ok globs? =>
        rw [hw] at hfind
        dsimp only at hfind
        cases hp : parsePackageJson doc with
        | none => rw [hp] at hfind; exact absurd hfind (by simp)
        | some rootPj =>
          rw [hp] at hfind
          dsimp only at hfind
          cases hfind
          exact ⟨rfl, rfl⟩
  · intro hall
    exact findFuel_noLock fs (path.length + 1) path (Nat.lt_succ_self _) hall

/-- C4 counterexample: a directory listing `package-lock.json` before
`yarn.lock` yields an NPM project even though `yarn.lock` is present — the
artifacts are not checked in the fixed priority order yarn, pnpm, npm. -/
theorem c4_counterexample :
    managerOf (Project.find fsC4 []) = some PackageManager.NPM ∧
    fsC4.listing [] = ["package-lock.json", "yarn.lock"] := by decide

/-- C4 witness: on a lock-free filesystem discovery from `/home/user`
fails with `CouldNotFindLockfile`, and one lock-free step recurses to the
parent directory. -/
theorem c4_witness :
    Project.find fsNoLock ["home", "user"] = .error .CouldNotFindLockfile ∧
    Project.find fsNoLock ["home"] = Project.find fsNoLock [] :=
  ⟨(c4_lock_detection_amended fsNoLock ["home", "user"]).2.2.1 (fun q _ => rfl),
   (c4_lock_detection_amended fsNoLock ["home"]).1 rfl (by decide)⟩

theorem pathLookup_hmInsert (k : List String) (v : Package)
    (m : List (List String × Package)) (d : List String) :
    pathLookup d (hmInsert k v m) = if d = k then some v else pathLookup d m := by
  induction m with
  | nil =>
    by_cases h : d = k
    · subst h; simp [hmInsert, pathLookup]
    · have h' : ¬ k = d := fun hh => h hh.symm
      simp [hmInsert, pathLookup, h, h']
  | cons hd t ih =>
    obtain ⟨q, w⟩ := hd
    by_cases hqk : q = k
    · subst hqk
      simp only [hmInsert, if_pos rfl]
      by_cases hdq : q = d
      · subst hdq; simp [pathLookup]
      · have hdq' : ¬ d = q := fun hh => hdq hh.symm
        simp [pathLookup, hdq, hdq']
    · simp only [hmInsert, if_neg hqk]
      by_cases hdq : q = d
      · subst hdq
        simp [pathLookup, hqk]
      · have hdq' : ¬ d = q := fun hh => hdq hh.symm
        simp [pathLookup, hdq, ih]

theorem pathLookup_fold_sound (l : List Package) :
    ∀ (m0 : List (List String × Package)) (d : List String) (pkg : Package),
    pathLookup d (l.foldl (fun m pkg => hmInsert pkg.path pkg m) m0) = some pkg →
    (pkg ∈ l ∧ pkg.path = d) ∨ pathLookup d m0 = some pkg := by
  induction l with
  | nil => exact fun m0 d pkg h => Or.inr h
  | cons hd t ih =>
    intro m0 d pkg h
    rcases ih (hmInsert hd.path hd m0) d pkg h with hmem | hbase
    · exact Or.inl ⟨List.mem_cons_of_mem hd hmem.1, hmem.2⟩
    · rw [pathLookup_hmInsert] at hbase
      by_cases hdk : d = hd.path
      · rw [if_pos hdk] at hbase
        cases hbase
        exact Or.inl ⟨List.mem_cons_self hd t, hdk.symm⟩
      · rw [if_neg hdk] at hbase
        exact Or.inr hbase

theorem pathLookup_fold_preserve (l : List Package) :
    ∀ (m0 : List (List String × Package)) (d : List String),
    (pathLookup d m0).isSome = true →
    (pathLookup d (l.foldl (fun m pkg => hmInsert pkg.path pkg m) m0)).isSome = true := by
  induction l with
  | nil => exact fun m0 d h => h
  | cons hd t ih =>
    intro m0 d h
    refine ih (hmInsert hd.path hd m0) d ?_
    rw [pathLookup_hmInsert]
    by_cases hdk : d = hd.path
    · rw [if_pos hdk]; rfl
    · rw [if_neg hdk]; exact h

theorem pathLookup_fold_complete (l : List Package) :
    ∀ (m0 : List (List String × Package)) (pkg : Package), pkg ∈ l →
    (pathLookup pkg.path (l.foldl (fun m pkg => hmInsert pkg.path pkg m) m0)).isSome
      = true := by
  induction l with
  | nil => exact fun m0 pkg h => absurd h (List.not_mem_nil pkg)
  | cons hd t ih =>
    intro m0 pkg h
    rcases List.mem_cons.mp h with heq | hmem
    · subst heq
      refine pathLookup_fold_preserve t _ _ ?_
      rw [pathLookup_hmInsert, if_pos rfl]
      rfl
    · exact ih _ pkg hmem

theorem pkgMap_sound (p : Project) (d : List String) (pkg : Package)
    (h : pathLookup d (pkgMapOf p) = some pkg) : pkg ∈ p.iter ∧ pkg.path = d := by
  unfold pkgMapOf at h
  rcases pathLookup_fold_sound _ _ _ _ h with hmem | hbase
  · exact ⟨List.mem_append_left _ hmem.1, hmem.2⟩
  · rw [pathLookup_hmInsert] at hbase
    by_cases hdk : d = p.root.path
    · rw [if_pos hdk] at hbase
      cases hbase
      exact ⟨List.mem_append_right _ (List.mem_singleton.mpr rfl), hdk.symm⟩
    · rw [if_neg hdk] at hbase
      exact absurd hbase (by simp [pathLookup])

theorem pkgMap_complete (p : Project) (pkg : Package) (h : pkg ∈ p.iter) :
    (pathLookup pkg.path (pkgMapOf p)).isSome = true := by
  unfold Project.iter at h
  rcases List.mem_append.mp h with hmem | hroot
  · exact pathLookup_fold_complete _ _ pkg hmem
  · rw [List.mem_singleton.mp hroot]
    refine pathLookup_fold_preserve _ _ _ ?_
    rw [pathLookup_hmInsert, if_pos rfl]
    rfl

theorem prefix_dropLast_of_proper {d path : List String} (hpre : d <+: path)
    (hne : d ≠ path) : d <+: path.dropLast := by
  obtain ⟨s, hs⟩ := hpre
  cases s with
  | nil => exact absurd (by simpa using hs) hne
  | cons x xs =>
    have hd : (d ++ x :: xs).dropLast = d ++ (x :: xs).dropLast :=
      List.dropLast_append_of_ne_nil d (List.cons_ne_nil x xs)
    rw [← hs, hd]
    exact List.prefix_append d ((x :: xs).dropLast)

theorem walkUpFuel_spec (m : List (List String × Package)) :
    ∀ (fuel : Nat) (path : List String), path.length < fuel →
    (∀ pkg, walkUpFuel m fuel path = some pkg →
      ∃ d, pathLookup d m = some pkg ∧ d <+: path ∧
        ∀ d' pkg', pathLookup d' m = some pkg' → d' <+: path →
          d'.length ≤ d.length) ∧
    (walkUpFuel m fuel path = none →
      ∀ d pkg', pathLookup d m = some pkg' → ¬ d <+: path) := by
  intro fuel
  induction fuel with
  | zero => exact fun path h => absurd h (Nat.not_lt_zero _)
  | succ fuel ih =>
    intro path hlt
    simp only [walkUpFuel]
    cases hl : pathLookup path m with
    | some pkg0 =>
      refine ⟨fun pkg hpkg => ?_, fun hno => by cases hno⟩
      cases hpkg
      refine ⟨path, hl, List.prefix_refl path, ?_⟩
      intro d' pkg' hlk' hpre'
      exact hpre'.length_le
    | none =>
      cases path with
      | nil =>
        constructor
        · intro pkg hpkg
          cases hpkg
        · intro hno d pkg' hlk hpre
          rw [List.prefix_nil.mp hpre] at hlk
          rw [hlk] at hl
          cases hl
      | cons h t =>
        have hlen := List.length_dropLast (h :: t)
        simp only [List.length_cons] at hlt hlen
        have ihs := ih ((h :: t).dropLast) (by omega)
        refine ⟨fun pkg hpkg => ?_, fun hno d pkg' hlk => ?_⟩
        · obtain ⟨d, hd, hdpre, hmax⟩ := ihs.1 pkg hpkg
          refine ⟨d, hd, hdpre.trans (List.dropLast_prefix (h :: t)), ?_⟩
          intro d' pkg' hlk' hpre'
          have hne : d' ≠ h :: t := by
            intro heq
            rw [heq] at hlk'
            rw [hlk'] at hl
            cases hl
          exact hmax d' pkg' hlk' (prefix_dropLast_of_proper hpre' hne)
        · intro hpre
          have hne : d ≠ h :: t := by
            intro heq
            rw [heq] at hlk
            rw [hlk] at hl
            cases hl
          exact ihs.2 hno d pkg' hlk (prefix_dropLast_of_proper hpre hne)

theorem walkUp_spec (m : List (List String × Package)) (path : List String) :
    (∀ pkg, walkUp m path = some pkg →
      ∃ d, pathLookup d m = some pkg ∧ d <+: path ∧
        ∀ d' pkg', pathLookup d' m = some pkg' → d' <+: path →
          d'.length ≤ d.length) ∧
    (walkUp m path = none →
      ∀ d pkg', pathLookup d m = some pkg' → ¬ d <+: path) :=
  walkUpFuel_spec m (path.length + 1) path (Nat.lt_succ_self _)

/-- C7: `closest_pkg` returns a known package (root or member) whose
directory is an ancestor-or-self of the queried path of maximal length —
the nearest such — and returns none exactly when no known package
directory is an ancestor-or-self of the path; in the spec's scenario
(root at `/repo`, member foo at `/repo/packages/foo`) the query
`/repo/packages/foo/src` yields foo and `/repo/other` yields the root. -/
theorem c7_closest_pkg_nearest_ancestor (p : Project) (path : List String) :
    (∀ pkg, p.closest_pkg path = some pkg →
      pkg ∈ p.iter ∧ pkg.path <+: path ∧
        ∀ pkg' ∈ p.iter, pkg'.path <+: path →
          pkg'.path.length ≤ pkg.path.length) ∧
    (p.closest_pkg path = none → ∀ pkg ∈ p.iter, ¬ pkg.path <+: path) ∧
    (projC7.closest_pkg ["repo", "packages", "foo", "src"]).map
      (fun q => q.pkg_json.name) = some ⟨"foo", none⟩ ∧
    (projC7.closest_pkg ["repo", "other"]).map
      (fun q => q.pkg_json.name) = some ⟨"root", none⟩ := by
  refine ⟨?_, ?_, by decide, by decide⟩
  · intro pkg hc
    obtain ⟨d, hd, hdpre, hmax⟩ := (walkUp_spec (pkgMapOf p) path).1 pkg hc
    obtain ⟨hmem, hpath⟩ := pkgMap_sound p d pkg hd
    subst hpath
    refine ⟨hmem, hdpre, ?_⟩
    intro pkg' hmem' hpre'
    have hsome := pkgMap_complete p pkg' hmem'
    cases hlk : pathLookup pkg'.path (pkgMapOf p) with
    | none => rw [hlk] at hsome; cases hsome
    | some pkg'' => exact hmax pkg'.path pkg'' hlk hpre'
  · intro hn pkg hmem hpre
    have hsome := pkgMap_complete p pkg hmem
    cases hlk : pathLookup pkg.path (pkgMapOf p) with
    | none => rw [hlk] at hsome; cases hsome
    | some pkg'' =>
      exact (walkUp_spec (pkgMapOf p) path).2 hn pkg.path pkg'' hlk hpre

theorem c7_witness :
    mkPkg "foo" ["repo", "packages", "foo"] [] ∈ projC7.iter ∧
    (mkPkg "foo" ["repo", "packages", "foo"] []).path <+:
      ["repo", "packages", "foo", "src"] :=
  ⟨((c7_closest_pkg_nearest_ancestor projC7 ["repo", "packages", "foo", "src"]).1
      (mkPkg "foo" ["repo", "packages", "foo"] []) rfl).1,
   ((c7_closest_pkg_nearest_ancestor projC7 ["repo", "packages", "foo", "src"]).1
      (mkPkg "foo" ["repo", "packages", "foo"] []) rfl).2.1⟩

/-- C8: when discovery succeeds at a lock-artifact hit, the project's
member map is `None` exactly when the workspace-glob resolution yielded no
configuration (no `workspaces` field for NPM/Yarn, no `pnpm-workspace.yaml`
for PNPM); when a glob list is present the member map is `Some`, built
from the expanded members — possibly empty, as the concrete
`"workspaces": []` project shows (`some 0` members), while the
no-configuration project has `packages = none`. -/
theorem c8_no_ws_config_packages_none (fs : FileSys) (path : List String)
    (mgr : PackageManager) (proj : Project)
    (hlock : firstLock (fs.listing path) = some mgr)
    (hfind : Project.find fs path = .ok proj) :
    (proj.packages = none ↔ wsGlobs fs path mgr = .ok none) ∧
    (∀ gl, wsGlobs fs path mgr = .ok (some gl) →
      proj.packages = some (buildPkgMap (fs.expandMembers path gl))) ∧
    pkgsShape (Project.find fsNoWs []) = some none ∧
    pkgsShape (Project.find fsEmptyWs []) = some (some 0) := by
  have key : ∃ globs?, wsGlobs fs path mgr = .ok globs? ∧
      proj.packages =
        globs?.map (fun globs => buildPkgMap (fs.expandMembers path globs)) := by
    rw [find_step fs path, hlock] at hfind
    dsimp only at hfind
    cases hr : fs.readPkgJson path with
    | none => rw [hr] at hfind; exact absurd hfind (by simp)
    | some doc =>
      rw [hr] at hfind
      dsimp only at hfind
      cases hw : wsGlobs fs path mgr with
      | error e => rw [hw] at hfind; exact absurd hfind (by simp)
      | ok globs? =>
        rw [hw] at hfind
        dsimp only at hfind
        cases hp : parsePackageJson doc with
        | none => rw [hp] at hfind; exact absurd hfind (by simp)
        | some rootPj =>
          rw [hp] at hfind
          dsimp only at hfind
          cases hfind
          exact ⟨globs?, rfl, rfl⟩
  obtain ⟨globs?, hw, hpack⟩ := key
  refine ⟨?_, ?_, by decide, by decide⟩
  · rw [hpack]
    cases globs? with
    | none => exact ⟨fun _ => hw, fun _ => rfl⟩
    | some gl =>
      constructor
      · intro h
        exact absurd h (by simp)
      · intro h
        rw [hw] at h
        exact absurd h (by simp)
  · intro gl hgl
    rw [hw] at hgl
    injection hgl with h
    rw [h] at hpack
    rw [hpack]
    rfl

theorem c8_witness :
    pkgsShape (Project.find fsNoWs []) = some none ∧
    pkgsShape (Project.find fsEmptyWs []) = some (some 0) := by
  constructor
  · cases h : Project.find fsNoWs [] with
    | error e =>
      have hv : pkgsShape (Project.find fsNoWs []) = some none := by decide
      rw [h] at hv
      exact absurd hv (by simp [pkgsShape])
    | ok proj =>
      rw [← h]
      exact (c8_no_ws_config_packages_none fsNoWs [] .Yarn proj rfl h).2.2.1
  · cases h : Project.find fsEmptyWs [] with
    | error e =>
      have hv : pkgsShape (Project.find fsEmptyWs []) = some (some 0) := by decide
      rw [h] at hv
      exact absurd hv (by simp [pkgsShape])
    | ok proj =>
      rw [← h]
      exact (c8_no_ws_config_packages_none fsEmptyWs [] .Yarn proj rfl h).2.2.2
